import Mathlib

/-! The open-format stack of go-render-quill (`format_state.go`).

A shallow embedding of `formatState` and its methods, and the properties
claimed of them.

Modelling conventions.

* A `*bytes.Buffer` is the `String` written so far; every method that writes
  takes the buffer and returns the new one.
* A Go `string` is a Lean `String` (valid Unicode text); Go orders strings
  bytewise, which on UTF-8 text is the code point order used here.
* A `Formatter` interface value is an element of an arbitrary type `Fm`; its
  methods are looked up in an `Env`. The type assertion
  `fm.(FormatWrapper)` succeeds exactly when `Env.isWrapper fm` holds.
* An index out of range (a Go run-time panic) is `none`.
-/

namespace Quill

/-! ## Data model -/

/-- Modelled from the spec: the `Format` struct is declared outside
`format_state.go`. It carries the fields that file reads: the payload `Val`,
the category `Place` (an unsigned integer in the source, compared with `3` by
`add`) and the capability reference `fm`. -/
structure Format (Fm : Type) where
  Val : String
  Place : Nat
  fm : Fm
deriving DecidableEq, Repr

/-- Modelled from the spec: the place constant `Tag`, lowest of the fixed
precedence Tag < Class < Style. -/
def Tag : Nat := 0

/-- Modelled from the spec: the place constant `Class`. -/
def Class : Nat := 1

/-- Modelled from the spec: the place constant `Style`; `add` accepts exactly
the places below `3`. -/
def Style : Nat := 2

/-- What `format_state.go` receives from the rest of the program and from the Go
library: the method tables of the `Formatter` values (`HasFormat` of every
formatter, `PreWrap` and `PostWrap` of those that implement `FormatWrapper`),
and the Unicode table `unicode.IsPrint` consulted by `strconv.Quote`. -/
structure Env (Fm Op : Type) where
  HasFormat : Fm → Op → Bool
  isWrapper : Fm → Bool
  PreWrap : Fm → List (Format Fm) → String
  PostWrap : Fm → List (Format Fm) → Op → String
  IsPrint : Char → Bool

/-- The struct `formatState`: the list of currently open formats. -/
structure formatState (Fm : Type) where
  «open» : List (Format Fm)
deriving DecidableEq, Repr

/-! ## `strconv.Quote` -/

/-- The digit table `lowerhex` of package `strconv`. -/
def lowerhex : List Char := "0123456789abcdef".data

/-- The expression `lowerhex[n & 0xF]`. -/
def hexDigit (n : Nat) : Char := lowerhex.getD (n % 16) '0'

/-- The function `appendEscapedRune` of package `strconv`, for the double quote
as quote character and with `ASCIIonly` and `graphicOnly` both false, as
`Quote` calls it. -/
def appendEscapedRune (IsPrint : Char → Bool) (buf : String) (r : Char) : String :=
  if r = '"' ∨ r = '\\' then (buf.push '\\').push r
  else if IsPrint r then buf.push r
  else if r = Char.ofNat 7 then buf ++ "\\a"
  else if r = Char.ofNat 8 then buf ++ "\\b"
  else if r = Char.ofNat 12 then buf ++ "\\f"
  else if r = '\n' then buf ++ "\\n"
  else if r = '\r' then buf ++ "\\r"
  else if r = '\t' then buf ++ "\\t"
  else if r = Char.ofNat 11 then buf ++ "\\v"
  else if r.toNat < 32 ∨ r.toNat = 127 then
    ((buf ++ "\\x").push (hexDigit (r.toNat / 16))).push (hexDigit r.toNat)
  else if r.toNat < 65536 then
    [12, 8, 4, 0].foldl (fun b s => b.push (hexDigit (r.toNat / 2 ^ s))) (buf ++ "\\u")
  else
    [28, 24, 20, 16, 12, 8, 4, 0].foldl
      (fun b s => b.push (hexDigit (r.toNat / 2 ^ s))) (buf ++ "\\U")

/-- The function `strconv.Quote` on valid UTF-8 text: an opening double quote,
every rune escaped by `appendEscapedRune`, a closing double quote. -/
def Quote (IsPrint : Char → Bool) (s : String) : String :=
  (s.data.foldl (appendEscapedRune IsPrint) "\"").push '"'

/-! ## The methods of `formatState` -/

section Methods

variable {Fm Op : Type}

/-- The method `hasSet`: is a format with the same place and value open. -/
def hasSet (fs : formatState Fm) (fm : Format Fm) : Bool :=
  fs.open.any (fun x => decide (x.Place = fm.Place) && decide (x.Val = fm.Val))

/-- The method `add`. -/
def add (fs : formatState Fm) (f : Format Fm) : formatState Fm :=
  if f.Place < 3 then ⟨fs.open ++ [f]⟩ else fs

/-- Modelled from the spec: the helper `closeTag` is declared outside
`format_state.go`; it writes the closing tag of the element named `s`. -/
def closeTag (buf : String) (s : String) : String :=
  (buf ++ "</" ++ s).push '>'

/-- The method `pop`. On an empty stack `indx` is `-1` and the read
`fs.open[indx]` is out of range. -/
def pop (E : Env Fm Op) (fs : formatState Fm) (buf : String) (o : Op) :
    Option (formatState Fm × String) :=
  let indx := fs.open.length - 1
  match fs.open[indx]? with
  | none => none
  | some f =>
    let buf :=
      if E.isWrapper f.fm then buf ++ E.PostWrap f.fm fs.open o
      else if f.Place = Tag then closeTag buf f.Val
      else closeTag buf "span"
    some (⟨fs.open.take indx⟩, buf)

/-- The method `Len` of the `sort.Interface` implementation. -/
def Len (fs : formatState Fm) : Nat := fs.open.length

/-- The method `Less` of the `sort.Interface` implementation. -/
def Less (E : Env Fm Op) (fs : formatState Fm) (i j : Nat) : Option Bool :=
  match fs.open[i]? with
  | none => none
  | some x =>
    if E.isWrapper x.fm then some true
    else
      match fs.open[j]? with
      | none => none
      | some y =>
        if E.isWrapper y.fm then some false
        else if x.Place ≠ y.Place then some (decide (x.Place < y.Place))
        else some (decide (x.Val.data < y.Val.data))

/-- The method `Swap` of the `sort.Interface` implementation. -/
def Swap (fs : formatState Fm) (i j : Nat) : Option (formatState Fm) :=
  match fs.open[i]?, fs.open[j]? with
  | some x, some y => some ⟨(fs.open.set i y).set j x⟩
  | _, _ => none

/-- The inner loop of `insertionSort` in package `sort`:
`for j := i; j > a && data.Less(j, j-1); j-- { data.Swap(j, j-1) }`,
entered at `j`. -/
def insertionSortInner (E : Env Fm Op) (a : Nat) :
    Nat → formatState Fm → Option (formatState Fm)
  | 0, fs => some fs
  | j + 1, fs =>
    if j + 1 > a then
      match Less E fs (j + 1) j with
      | none => none
      | some false => some fs
      | some true =>
        match Swap fs (j + 1) j with
        | none => none
        | some fs1 => insertionSortInner E a j fs1
    else some fs

/-- The outer loop of `insertionSort`: `for i := a + 1; i < b; i++`, with `k`
iterations left, so that `i = b - k`. -/
def insertionSortOuter (E : Env Fm Op) (a b : Nat) :
    Nat → formatState Fm → Option (formatState Fm)
  | 0, fs => some fs
  | k + 1, fs =>
    match insertionSortInner E a (b - (k + 1)) fs with
    | none => none
    | some fs1 => insertionSortOuter E a b k fs1

/-- The function `insertionSort(data, a, b)` of package `sort`. -/
def insertionSort (E : Env Fm Op) (fs : formatState Fm) (a b : Nat) :
    Option (formatState Fm) :=
  insertionSortOuter E a b (b - (a + 1)) fs

/-- The call `sort.Sort(fs)` (`Sort` alone is a reserved word of Lean). The
library sorts a slice of at most twelve elements by `insertionSort(data, 0, n)`,
the routine embedded here, and the open stack holds the formats of one run.
On a longer slice the library partitions first; what it leaves then is again a
permutation, which can differ from the one computed here in the order of
formats with equal place and value and in the order of the wrappers. -/
def sortSort (E : Env Fm Op) (fs : formatState Fm) : Option (formatState Fm) :=
  let n := Len fs
  if n ≤ 1 then some fs else insertionSort E fs 0 n

/-- The body of the loop of `writeFormats` for the open format `f`. -/
def writeFormat (E : Env Fm Op) (stack : List (Format Fm)) (buf : String)
    (f : Format Fm) : String :=
  if E.isWrapper f.fm then
    let wrap := E.PreWrap f.fm stack
    if wrap ≠ "" then buf ++ wrap else buf
  else
    let buf := buf.push '<'
    let buf :=
      if f.Place = Tag then buf ++ f.Val
      else if f.Place = Class then buf ++ "span class=" ++ Quote E.IsPrint f.Val
      else if f.Place = Style then buf ++ "span style=" ++ Quote E.IsPrint f.Val
      else buf
    buf.push '>'

/-- The method `writeFormats`: sort the stack, then write every open format. -/
def writeFormats (E : Env Fm Op) (fs : formatState Fm) (buf : String) :
    Option (formatState Fm × String) :=
  match sortSort E fs with
  | none => none
  | some fs1 => some (fs1, fs1.open.foldl (writeFormat E fs1.open) buf)

/-- The variables of `closePrevious`: the receiver, the buffer and the local
slice `closedTemp`. -/
structure CloseState (Fm : Type) where
  fs : formatState Fm
  buf : String
  closedTemp : List (Format Fm)

/-- The loop `for ij := len(fs.open) - 1; ij > i; ij--` of `closePrevious`,
entered at `ij = n - 1`. -/
def closeTempLoop (E : Env Fm Op) (o : Op) (i : Nat) :
    Nat → CloseState Fm → Option (CloseState Fm)
  | 0, s => some s
  | ij + 1, s =>
    if ij > i then
      match s.fs.open[ij]? with
      | none => none
      | some f =>
        match pop E s.fs s.buf o with
        | none => none
        | some (fs1, buf1) => closeTempLoop E o i ij ⟨fs1, buf1, s.closedTemp ++ [f]⟩
    else some s

/-- The loop `for i := len(fs.open) - 1; i >= 0; i--` of `closePrevious`,
entered at `i = n - 1`. -/
def closeLoop (E : Env Fm Op) (o : Op) : Nat → CloseState Fm → Option (CloseState Fm)
  | 0, s => some s
  | i + 1, s =>
    match s.fs.open[i]? with
    | none => none
    | some f =>
      if !E.HasFormat f.fm o then
        if E.isWrapper f.fm then
          match pop E s.fs s.buf o with
          | none => none
          | some (fs1, buf1) => closeLoop E o i ⟨fs1, buf1, s.closedTemp⟩
        else
          let s1 :=
            if (i : Int) < (s.fs.open.length : Int) - 1 then
              closeTempLoop E o i s.fs.open.length s
            else some s
          match s1 with
          | none => none
          | some s2 =>
            match pop E s2.fs s2.buf o with
            | none => none
            | some (fs3, buf3) => closeLoop E o i ⟨fs3, buf3, s2.closedTemp⟩
      else closeLoop E o i s

/-- The method `closePrevious`. -/
def closePrevious (E : Env Fm Op) (fs : formatState Fm) (buf : String) (o : Op) :
    Option (formatState Fm × String) :=
  match closeLoop E o fs.open.length ⟨fs, buf, []⟩ with
  | none => none
  | some s =>
    if s.closedTemp.length > 0 then
      writeFormats E (s.closedTemp.foldl add s.fs) s.buf
    else some (s.fs, s.buf)

end Methods
/-! ## The loops as functions on lists

The definitions of this section restate the loops of `insertionSort` and of
`closePrevious` as recursions on lists; the lemmas below prove that the
embedded methods compute them. -/

section Characterisation

variable {Fm Op : Type}

/-- The comparison `Less(i, j)` makes once `x = fs.open[i]` and `y = fs.open[j]`
have been read. -/
def lessFormat (E : Env Fm Op) (x y : Format Fm) : Bool :=
  if E.isWrapper x.fm then true
  else if E.isWrapper y.fm then false
  else if x.Place ≠ y.Place then decide (x.Place < y.Place)
  else decide (x.Val.data < y.Val.data)

/-- One run of the inner loop of `insertionSort`, on the part of the slice
below the moving element `x`, held last element first: `x` moves down past
every element it is `Less` than and stops at the first it is not. -/
def insertDown (E : Env Fm Op) (x : Format Fm) : List (Format Fm) → List (Format Fm)
  | [] => [x]
  | y :: r => if lessFormat E x y then y :: insertDown E x r else x :: y :: r

/-- The slice `insertionSort(data, 0, n)` leaves, as a function of the slice it
is given. -/
def sortedStack (E : Env Fm Op) (l : List (Format Fm)) : List (Format Fm) :=
  (l.foldl (fun acc x => insertDown E x acc) []).reverse

/-- The fragment `pop` writes for the last element `f` of the stack `st`. -/
def closeFragment (E : Env Fm Op) (o : Op) (st : List (Format Fm)) (f : Format Fm) : String :=
  if E.isWrapper f.fm then E.PostWrap f.fm st o
  else if f.Place = Tag then "</" ++ f.Val ++ ">"
  else "</span>"

/-- What successive calls of `pop` write while they remove the formats `top`
(last element first) from the stack `base ++ top.reverse`. -/
def popFragments (E : Env Fm Op) (o : Op) (base : List (Format Fm)) :
    List (Format Fm) → String
  | [] => ""
  | f :: r => closeFragment E o (base ++ (f :: r).reverse) f ++ popFragments E o base r

/-- The close loop of `closePrevious` as a scan of the stack from its last
element down: `below` is the part of the stack not yet visited, last element
first, and `above` the part already visited and still open. -/
def closeScan (E : Env Fm Op) (o : Op) :
    List (Format Fm) → List (Format Fm) → String → List (Format Fm) → CloseState Fm
  | [], above, buf, temp => ⟨⟨above⟩, buf, temp⟩
  | f :: below, above, buf, temp =>
    if E.HasFormat f.fm o then closeScan E o below (f :: above) buf temp
    else if E.isWrapper f.fm then
      closeScan E o below (f :: above).dropLast
        (buf ++ closeFragment E o (below.reverse ++ f :: above)
          ((f :: above).getLast (List.cons_ne_nil f above))) temp
    else
      closeScan E o below []
        (buf ++ popFragments E o (below.reverse ++ [f]) above.reverse
          ++ closeFragment E o (below.reverse ++ [f]) f)
        (temp ++ above.reverse)

/-- The fragment the loop of `writeFormats` writes for a format that is not a
wrapper. -/
def openFragment (E : Env Fm Op) (f : Format Fm) : String :=
  "<" ++
    (if f.Place = Tag then f.Val
     else if f.Place = Class then "span class=" ++ Quote E.IsPrint f.Val
     else if f.Place = Style then "span style=" ++ Quote E.IsPrint f.Val
     else "") ++ ">"

/-- The fragment the loop of `writeFormats` writes for the open format `f` of the
sorted stack `st`: the result of `PreWrap` for a wrapper, `openFragment`
otherwise. -/
def writeFragment (E : Env Fm Op) (st : List (Format Fm)) (f : Format Fm) : String :=
  if E.isWrapper f.fm then E.PreWrap f.fm st else openFragment E f

end Characterisation

/-! ## The wording of the spec -/

section SpecWording

variable {Fm Op : Type}

/-- The canonical order of the spec on formats that are not wrappers: by place
ascending, then by value ascending. -/
def canonLE (a b : Format Fm) : Prop :=
  a.Place < b.Place ∨ (a.Place = b.Place ∧ a.Val ≤ b.Val)

/-- The opening markup the spec gives a format that is not a wrapper:
the tag named by the value for Tag, a span with the quoted class
attribute for Class, a span with the quoted style attribute for Style. -/
def specOpening (f : Format Fm) : String :=
  if f.Place = Tag then "<" ++ f.Val ++ ">"
  else if f.Place = Class then "<span class=\"" ++ f.Val ++ "\">"
  else "<span style=\"" ++ f.Val ++ "\">"

/-- The closing markup the spec gives a format that is not a wrapper: the
closing tag named by the value for Tag, the closing span tag otherwise. -/
def specClosing (f : Format Fm) : String :=
  if f.Place = Tag then "</" ++ f.Val ++ ">" else "</span>"

/-- The name of the element a format that is not a wrapper stands for: its value
for place Tag, `span` otherwise. -/
def elementName (f : Format Fm) : String :=
  if f.Place = Tag then f.Val else "span"

/-- A value has no double quote, no backslash and no non-printable character. -/
def plainValue (E : Env Fm Op) (v : String) : Prop :=
  ∀ c ∈ v.data, c ≠ '"' ∧ c ≠ '\\' ∧ E.IsPrint c = true

/-- The sort key of the spec for formats that are not wrappers. -/
def sortKey (f : Format Fm) : Nat × String := (f.Place, f.Val)

instance (E : Env Fm Op) (v : String) : Decidable (plainValue E v) := by
  unfold plainValue
  infer_instance

/-- The closing fragment the spec gives the open format at index `i` of the
stack `l` when everything above it has been closed: `PostWrap` of the stack
still open (the elements up to index `i`) and the run for a wrapper, the
generic closing tag otherwise. -/
def specClosingAt (E : Env Fm Op) (o : Op) (l : List (Format Fm)) (i : Nat) : String :=
  match l[i]? with
  | none => ""
  | some f => if E.isWrapper f.fm then E.PostWrap f.fm (l.take (i + 1)) o else specClosing f

end SpecWording

/-! ## A concrete environment -/

/-- A concrete environment on which the methods can be evaluated: formatters
are numbers, a run is the list of the formatters set on it, the formatters
numbered 100 and above implement `FormatWrapper` and wrap a list, and the
printable characters are those of ASCII. -/
def sampleEnv : Env Nat (List Nat) where
  HasFormat := fun fm o => o.contains fm
  isWrapper := fun fm => decide (100 ≤ fm)
  PreWrap := fun _ _ => "<ul>"
  PostWrap := fun _ _ _ => "</ul>"
  IsPrint := fun c => decide (32 ≤ c.toNat ∧ c.toNat ≤ 126)

end Quill

/-! ## Lemmas on `sort.Sort` -/

namespace Quill

section SortLemmas

variable {Fm Op : Type}

theorem Less_eq_lessFormat (E : Env Fm Op) (l : List (Format Fm)) (i j : Nat)
    (x y : Format Fm) (hi : l[i]? = some x) (hj : l[j]? = some y) :
    Less E ⟨l⟩ i j = some (lessFormat E x y) := by
  unfold Less lessFormat
  simp only [hi, hj]
  split_ifs <;> rfl

theorem length_insertDown (E : Env Fm Op) (x : Format Fm) (r : List (Format Fm)) :
    (insertDown E x r).length = r.length + 1 := by
  induction r with
  | nil => rfl
  | cons y r ih =>
    unfold insertDown
    split_ifs
    · simp [ih]
    · simp

theorem insertionSortInner_eq (E : Env Fm Op) (x : Format Fm) (r : List (Format Fm)) :
    ∀ s : List (Format Fm),
      insertionSortInner E 0 r.length ⟨r.reverse ++ x :: s⟩ =
        some ⟨(insertDown E x r).reverse ++ s⟩ := by
  induction r with
  | nil => intro s; rfl
  | cons y r ih =>
    intro s
    have hx : (((y :: r).reverse ++ x :: s)[r.length + 1]?) = some x := by
      rw [List.getElem?_append_right (by simp)]
      simp
    have hy : (((y :: r).reverse ++ x :: s)[r.length]?) = some y := by
      rw [List.getElem?_append_left (by simp)]
      simp [List.getElem?_append_right]
    simp only [List.length_cons, insertionSortInner]
    rw [Less_eq_lessFormat E _ _ _ x y hx hy]
    simp only [Nat.succ_pos, gt_iff_lt, Nat.zero_lt_succ, if_true]
    cases hlt : lessFormat E x y with
    | false =>
      simp [insertDown, hlt]
    | true =>
      have hsw : Swap ⟨(y :: r).reverse ++ x :: s⟩ (r.length + 1) r.length =
          some ⟨r.reverse ++ x :: (y :: s)⟩ := by
        unfold Swap
        simp only [hx, hy]
        congr 2
        simp [List.set_append]
      simp only [hsw, ih (y :: s)]
      simp [insertDown, hlt]

theorem insertionSortOuter_eq (E : Env Fm Op) (rest : List (Format Fm)) :
    ∀ r : List (Format Fm),
      insertionSortOuter E 0 (r.length + rest.length) rest.length ⟨r.reverse ++ rest⟩ =
        some ⟨(rest.foldl (fun acc x => insertDown E x acc) r).reverse⟩ := by
  induction rest with
  | nil => intro r; simp [insertionSortOuter]
  | cons x rest ih =>
    intro r
    simp only [List.length_cons, insertionSortOuter, List.foldl_cons]
    have hb : r.length + (rest.length + 1) - (rest.length + 1) = r.length := by omega
    rw [hb, insertionSortInner_eq E x r rest]
    have h2 := ih (insertDown E x r)
    rw [length_insertDown] at h2
    have hb2 : r.length + 1 + rest.length = r.length + (rest.length + 1) := by omega
    rw [hb2] at h2
    exact h2

/-- The call `sort.Sort(fs)` never fails and leaves `sortedStack`. -/
theorem sortSort_eq (E : Env Fm Op) (l : List (Format Fm)) :
    sortSort E ⟨l⟩ = some ⟨sortedStack E l⟩ := by
  unfold sortSort Len sortedStack
  match l with
  | [] => simp
  | [x] => simp [insertDown]
  | x :: y :: t =>
    have h := insertionSortOuter_eq E (y :: t) [x]
    simp only [List.length_cons, List.length_nil, List.reverse_cons, List.reverse_nil,
      List.nil_append, List.singleton_append] at h
    simp only [List.length_cons, insertionSort, List.foldl_cons, insertDown]
    have h1 : ¬ (t.length + 1 + 1 ≤ 1) := by omega
    simp only [h1, if_false]
    have h2 : t.length + 1 + 1 - (0 + 1) = t.length + 1 := by omega
    have h3 : 0 + 1 + (t.length + 1) = t.length + 1 + 1 := by omega
    rw [h2]
    rw [h3] at h
    simpa [insertDown] using h

end SortLemmas

end Quill

/-! ## Lemmas on the canonical order -/

namespace Quill

section OrderLemmas

variable {Fm Op : Type}

theorem canonLE_iff_lex (a b : Format Fm) :
    canonLE a b ↔ toLex (a.Place, a.Val) ≤ toLex (b.Place, b.Val) := by
  rw [Prod.Lex.le_iff]
  rfl

theorem canonLE_total (a b : Format Fm) : canonLE a b ∨ canonLE b a := by
  rw [canonLE_iff_lex, canonLE_iff_lex]
  exact le_total _ _

theorem canonLE_trans {a b c : Format Fm} (h1 : canonLE a b) (h2 : canonLE b c) :
    canonLE a c := by
  rw [canonLE_iff_lex] at *
  exact le_trans h1 h2

theorem lessFormat_eq_false_iff (E : Env Fm Op) (x y : Format Fm)
    (hx : E.isWrapper x.fm = false) (hy : E.isWrapper y.fm = false) :
    lessFormat E x y = false ↔ canonLE y x := by
  unfold lessFormat canonLE
  simp only [hx, hy, Bool.false_eq_true, if_false]
  by_cases hp : x.Place = y.Place
  · simp only [hp, ne_eq, not_true_eq_false, if_false, decide_eq_false_iff_not, lt_self_iff_false,
      true_and, false_or]
    rw [String.le_iff_toList_le]
    exact not_lt
  · simp only [ne_eq, hp, not_false_eq_true, if_true, decide_eq_false_iff_not]
    constructor
    · intro h
      left
      omega
    · rintro (h | ⟨h, _⟩)
      · omega
      · exact absurd h.symm hp

theorem lessFormat_eq_true_imp (E : Env Fm Op) (x y : Format Fm)
    (hx : E.isWrapper x.fm = false) (hy : E.isWrapper y.fm = false)
    (h : lessFormat E x y = true) : canonLE x y := by
  rcases canonLE_total x y with h1 | h1
  · exact h1
  · rw [← lessFormat_eq_false_iff E x y hx hy] at h1
    rw [h1] at h
    exact absurd h (by decide)

theorem insertDown_perm (E : Env Fm Op) (x : Format Fm) (r : List (Format Fm)) :
    (insertDown E x r).Perm (x :: r) := by
  induction r with
  | nil => exact List.Perm.refl _
  | cons y r ih =>
    unfold insertDown
    split_ifs
    · exact (List.Perm.cons y ih).trans (List.Perm.swap x y r)
    · exact List.Perm.refl _

theorem foldl_insertDown_perm (E : Env Fm Op) (l : List (Format Fm)) :
    ∀ acc : List (Format Fm),
      (l.foldl (fun acc x => insertDown E x acc) acc).Perm (l.reverse ++ acc) := by
  induction l with
  | nil => intro acc; exact List.Perm.refl _
  | cons x l ih =>
    intro acc
    simp only [List.foldl_cons, List.reverse_cons, List.append_assoc, List.singleton_append]
    exact (ih _).trans (List.Perm.append_left _ (insertDown_perm E x acc))

theorem sortedStack_perm (E : Env Fm Op) (l : List (Format Fm)) :
    (sortedStack E l).Perm l := by
  unfold sortedStack
  refine (List.reverse_perm _).trans ?_
  have h := foldl_insertDown_perm E l []
  simp only [List.append_nil] at h
  exact h.trans (List.reverse_perm l)

theorem insertDown_descending (E : Env Fm Op) (x : Format Fm) (r : List (Format Fm))
    (hx : E.isWrapper x.fm = false) (hr : ∀ f ∈ r, E.isWrapper f.fm = false)
    (hs : r.Pairwise (fun a b => canonLE b a)) :
    (insertDown E x r).Pairwise (fun a b => canonLE b a) := by
  induction r with
  | nil => simp [insertDown]
  | cons y r ih =>
    have hy : E.isWrapper y.fm = false := hr y (List.mem_cons_self y r)
    have hr1 : ∀ f ∈ r, E.isWrapper f.fm = false :=
      fun f hf => hr f (List.mem_cons_of_mem y hf)
    rw [List.pairwise_cons] at hs
    unfold insertDown
    cases hlt : lessFormat E x y with
    | true =>
      simp only [if_true]
      rw [List.pairwise_cons]
      refine ⟨?_, ih hr1 hs.2⟩
      intro z hz
      rcases List.mem_cons.mp ((insertDown_perm E x r).mem_iff.mp hz) with rfl | hz1
      · exact lessFormat_eq_true_imp E z y hx hy hlt
      · exact hs.1 z hz1
    | false =>
      simp only [Bool.false_eq_true, if_false]
      have hyx : canonLE y x := (lessFormat_eq_false_iff E x y hx hy).mp hlt
      rw [List.pairwise_cons]
      refine ⟨?_, List.pairwise_cons.mpr hs⟩
      intro z hz
      rcases List.mem_cons.mp hz with rfl | hz1
      · exact hyx
      · exact canonLE_trans (hs.1 z hz1) hyx

theorem foldl_insertDown_descending (E : Env Fm Op) (l : List (Format Fm)) :
    ∀ acc : List (Format Fm),
      (∀ f ∈ l, E.isWrapper f.fm = false) → (∀ f ∈ acc, E.isWrapper f.fm = false) →
      acc.Pairwise (fun a b => canonLE b a) →
      (l.foldl (fun acc x => insertDown E x acc) acc).Pairwise (fun a b => canonLE b a) := by
  induction l with
  | nil => intro acc _ _ hs; exact hs
  | cons x l ih =>
    intro acc hl hacc hs
    simp only [List.foldl_cons]
    have hx := hl x (List.mem_cons_self x l)
    refine ih _ (fun f hf => hl f (List.mem_cons_of_mem x hf)) ?_
      (insertDown_descending E x acc hx hacc hs)
    intro f hf
    rcases List.mem_cons.mp ((insertDown_perm E x acc).mem_iff.mp hf) with rfl | h1
    · exact hx
    · exact hacc f h1

/-- On a stack without wrappers `sort.Sort` leaves the canonical order. -/
theorem sortedStack_sorted (E : Env Fm Op) (l : List (Format Fm))
    (hl : ∀ f ∈ l, E.isWrapper f.fm = false) :
    (sortedStack E l).Pairwise canonLE := by
  unfold sortedStack
  rw [List.pairwise_reverse]
  exact foldl_insertDown_descending E l [] hl (by simp) List.Pairwise.nil

end OrderLemmas

end Quill

/-! ## Lemmas on the fragments written -/

namespace Quill

section StringLemmas

variable {Fm Op : Type}

theorem join_cons (a : String) (l : List String) : String.join (a :: l) = a ++ String.join l := by
  apply String.ext
  simp

theorem foldl_appendEscapedRune_plain (P : Char → Bool) (cs : List Char) :
    ∀ buf : String, (∀ c ∈ cs, c ≠ '"' ∧ c ≠ '\\' ∧ P c = true) →
      cs.foldl (appendEscapedRune P) buf = buf ++ ⟨cs⟩ := by
  induction cs with
  | nil => intro buf _; apply String.ext; simp
  | cons c cs ih =>
    intro buf h
    have hc := h c (List.mem_cons_self c cs)
    rw [List.foldl_cons, ih _ (fun d hd => h d (List.mem_cons_of_mem c hd))]
    unfold appendEscapedRune
    simp only [hc.1, hc.2.1, or_self, if_false, hc.2.2, if_true]
    apply String.ext
    simp

/-- On a value without quote, backslash or non-printable character
`strconv.Quote` only adds the two double quotes. -/
theorem Quote_plain (E : Env Fm Op) (v : String) (h : plainValue E v) :
    Quote E.IsPrint v = "\"" ++ v ++ "\"" := by
  unfold Quote
  rw [foldl_appendEscapedRune_plain E.IsPrint v.data "\"" h]
  apply String.ext
  simp

theorem writeFormat_eq (E : Env Fm Op) (st : List (Format Fm)) (buf : String) (f : Format Fm)
    (hf : E.isWrapper f.fm = false) :
    writeFormat E st buf f = buf ++ openFragment E f := by
  unfold writeFormat openFragment
  simp only [hf, Bool.false_eq_true, if_false]
  apply String.ext
  split_ifs <;> simp

theorem foldl_writeFormat_eq (E : Env Fm Op) (st : List (Format Fm)) (l : List (Format Fm)) :
    ∀ buf : String, (∀ f ∈ l, E.isWrapper f.fm = false) →
      l.foldl (writeFormat E st) buf = buf ++ String.join (l.map (openFragment E)) := by
  induction l with
  | nil => intro buf _; apply String.ext; simp
  | cons f l ih =>
    intro buf h
    rw [List.foldl_cons, writeFormat_eq E st buf f (h f (List.mem_cons_self f l)),
      ih _ (fun g hg => h g (List.mem_cons_of_mem f hg)), List.map_cons, join_cons,
      String.append_assoc]

theorem openFragment_eq_specOpening (E : Env Fm Op) (f : Format Fm)
    (hp : f.Place = Tag ∨ f.Place = Class ∨ f.Place = Style)
    (hv : f.Place ≠ Tag → plainValue E f.Val) :
    openFragment E f = specOpening f := by
  unfold openFragment specOpening
  by_cases h0 : f.Place = Tag
  · simp only [h0, if_true]
  · have hq := Quote_plain E f.Val (hv h0)
    simp only [h0, if_false, hq]
    rcases hp with h | h | h
    · exact absurd h h0
    · simp only [h, if_true]
      apply String.ext
      simp
    · have h1 : ¬ (Style = Class) := by decide
      simp only [h, h1, if_false, if_true]
      apply String.ext
      simp

theorem closeFragment_eq_specClosing (E : Env Fm Op) (o : Op) (st : List (Format Fm))
    (f : Format Fm) (hf : E.isWrapper f.fm = false) :
    closeFragment E o st f = specClosing f := by
  unfold closeFragment specClosing
  simp [hf]

/-- What `writeFormats` does on a stack without wrappers. -/
theorem writeFormats_eq (E : Env Fm Op) (l : List (Format Fm)) (buf : String)
    (hl : ∀ f ∈ l, E.isWrapper f.fm = false) :
    writeFormats E ⟨l⟩ buf =
      some (⟨sortedStack E l⟩, buf ++ String.join ((sortedStack E l).map (openFragment E))) := by
  unfold writeFormats
  rw [sortSort_eq]
  simp only
  rw [foldl_writeFormat_eq]
  intro f hf
  exact hl f ((sortedStack_perm E l).mem_iff.mp hf)

end StringLemmas

end Quill

/-! ## Lemmas on `pop` and `closePrevious` -/

namespace Quill

section CloseLemmas

variable {Fm Op : Type}

theorem closeTag_eq (buf s : String) : closeTag buf s = buf ++ ("</" ++ s ++ ">") := by
  unfold closeTag
  apply String.ext
  simp

/-- The method `pop` on a stack with last element `f`. -/
theorem pop_concat (E : Env Fm Op) (l : List (Format Fm)) (f : Format Fm) (buf : String)
    (o : Op) :
    pop E ⟨l ++ [f]⟩ buf o = some (⟨l⟩, buf ++ closeFragment E o (l ++ [f]) f) := by
  unfold pop closeFragment
  simp only [List.length_append, List.length_singleton, Nat.add_sub_cancel,
    List.getElem?_concat_length, List.take_left, closeTag_eq]
  split_ifs <;> rfl

theorem closeTempLoop_eq (E : Env Fm Op) (o : Op) (i : Nat) (base : List (Format Fm))
    (hb : base.length = i + 1) (top : List (Format Fm)) :
    ∀ (n : Nat) (buf : String) (temp : List (Format Fm)), n = base.length + top.length →
      closeTempLoop E o i n ⟨⟨base ++ top.reverse⟩, buf, temp⟩ =
        some ⟨⟨base⟩, buf ++ popFragments E o base top, temp ++ top⟩ := by
  induction top with
  | nil =>
    intro n buf temp hn
    simp only [List.length_nil, Nat.add_zero, hb] at hn
    subst hn
    simp only [closeTempLoop, gt_iff_lt, lt_self_iff_false,
      if_false, List.reverse_nil, List.append_nil, popFragments, String.append_empty]
  | cons f r ih =>
    intro n buf temp hn
    have hn1 : n = (base.length + r.length) + 1 := by
      rw [hn, List.length_cons, Nat.add_assoc]
    subst hn1
    have hgt : base.length + r.length > i := by omega
    have hrd : (base ++ (f :: r).reverse)[base.length + r.length]? = some f := by
      rw [List.getElem?_append_right (by omega)]
      simp
    have hpop := pop_concat E (base ++ r.reverse) f buf o
    have hst : base ++ (f :: r).reverse = base ++ r.reverse ++ [f] := by simp
    rw [closeTempLoop]
    simp only [hgt, if_true, hrd]
    rw [hst, hpop]
    simp only
    rw [ih _ _ _ rfl]
    simp [popFragments, String.append_assoc]

/-- The close loop of `closePrevious` never fails; it computes `closeScan`. -/
theorem closeLoop_eq (E : Env Fm Op) (o : Op) (below : List (Format Fm)) :
    ∀ (above : List (Format Fm)) (buf : String) (temp : List (Format Fm)),
      closeLoop E o below.length ⟨⟨below.reverse ++ above⟩, buf, temp⟩ =
        some (closeScan E o below above buf temp) := by
  induction below with
  | nil => intro above buf temp; rfl
  | cons f below ih =>
    intro above buf temp
    have hst : (f :: below).reverse ++ above = below.reverse ++ f :: above := by simp
    have hrd : (below.reverse ++ f :: above)[below.length]? = some f := by
      rw [List.getElem?_append_right (by simp)]
      simp
    rw [hst, List.length_cons, closeLoop, closeScan]
    simp only [hrd]
    by_cases hc : E.HasFormat f.fm o = true
    · simp only [hc, Bool.not_true, Bool.false_eq_true, if_false, if_true]
      exact ih _ _ _
    · simp only [Bool.not_eq_true] at hc
      simp only [hc, Bool.not_false, if_true, Bool.false_eq_true, if_false]
      by_cases hw : E.isWrapper f.fm = true
      · simp only [hw, if_true]
        have hsplit : below.reverse ++ f :: above =
            (below.reverse ++ (f :: above).dropLast) ++
              [(f :: above).getLast (List.cons_ne_nil f above)] := by
          rw [List.append_assoc, List.dropLast_append_getLast]
        have hpop := pop_concat E (below.reverse ++ (f :: above).dropLast)
          ((f :: above).getLast (List.cons_ne_nil f above)) buf o
        rw [← hsplit] at hpop
        rw [hpop]
        exact ih _ _ _
      · simp only [hw, Bool.false_eq_true, if_false]
        have hbl : (below.reverse ++ [f]).length = below.length + 1 := by simp
        have hst2 : below.reverse ++ f :: above = (below.reverse ++ [f]) ++ above.reverse.reverse := by
          simp
        have hs1 : (if (below.length : Int) < ((below.reverse ++ f :: above).length : Int) - 1 then
              closeTempLoop E o below.length (below.reverse ++ f :: above).length
                ⟨⟨below.reverse ++ f :: above⟩, buf, temp⟩
            else some ⟨⟨below.reverse ++ f :: above⟩, buf, temp⟩) =
            some ⟨⟨below.reverse ++ [f]⟩,
              buf ++ popFragments E o (below.reverse ++ [f]) above.reverse,
              temp ++ above.reverse⟩ := by
          by_cases hab : above = []
          · subst hab
            simp [popFragments]
          · have hpos : 0 < above.length := List.length_pos.mpr hab
            have hcond : (below.length : Int) <
                ((below.reverse ++ f :: above).length : Int) - 1 := by
              simp only [List.length_append, List.length_reverse, List.length_cons]
              push_cast
              omega
            rw [if_pos hcond]
            have h := closeTempLoop_eq E o below.length (below.reverse ++ [f]) hbl
              above.reverse (below.reverse ++ f :: above).length buf temp (by simp; omega)
            rw [← hst2] at h
            exact h
        rw [hs1]
        simp only [pop_concat]
        have h := ih [] (buf ++ popFragments E o (below.reverse ++ [f]) above.reverse
          ++ closeFragment E o (below.reverse ++ [f]) f) (temp ++ above.reverse)
        rw [List.append_nil] at h
        exact h

/-- The method `closePrevious` never fails: it runs `closeScan` over the stack and
then, when formats were closed temporarily, adds them and calls `writeFormats`. -/
theorem closePrevious_eq (E : Env Fm Op) (l : List (Format Fm)) (buf : String) (o : Op) :
    closePrevious E ⟨l⟩ buf o =
      (if (closeScan E o l.reverse [] buf []).closedTemp.length > 0 then
        writeFormats E ((closeScan E o l.reverse [] buf []).closedTemp.foldl add
          (closeScan E o l.reverse [] buf []).fs) (closeScan E o l.reverse [] buf []).buf
      else some ((closeScan E o l.reverse [] buf []).fs,
        (closeScan E o l.reverse [] buf []).buf)) := by
  have h := closeLoop_eq E o l.reverse [] buf []
  simp only [List.reverse_reverse, List.append_nil, List.length_reverse] at h
  unfold closePrevious
  simp only [h]

end CloseLemmas

end Quill

/-! ## Lemmas on stacks that hold wrappers -/

namespace Quill

section WrapperLemmas

variable {Fm Op : Type}

theorem join_append (l1 l2 : List String) :
    String.join (l1 ++ l2) = String.join l1 ++ String.join l2 := by
  apply String.ext
  simp

theorem writeFormat_eq_writeFragment (E : Env Fm Op) (st : List (Format Fm)) (buf : String)
    (f : Format Fm) : writeFormat E st buf f = buf ++ writeFragment E st f := by
  unfold writeFragment
  by_cases hw : E.isWrapper f.fm = true
  · unfold writeFormat
    simp only [hw, if_true]
    by_cases he : E.PreWrap f.fm st = ""
    · simp [he]
    · simp [he]
  · simp only [Bool.not_eq_true] at hw
    rw [writeFormat_eq E st buf f hw]
    simp [hw]

theorem foldl_writeFormat_eq_writeFragment (E : Env Fm Op) (st : List (Format Fm))
    (l : List (Format Fm)) :
    ∀ buf : String,
      l.foldl (writeFormat E st) buf = buf ++ String.join (l.map (writeFragment E st)) := by
  induction l with
  | nil => intro buf; apply String.ext; simp
  | cons f l ih =>
    intro buf
    rw [List.foldl_cons, writeFormat_eq_writeFragment, ih, List.map_cons, join_cons,
      String.append_assoc]

/-- The method `writeFormats` never fails: it leaves `sortedStack` and writes
the fragment of every format of the sorted stack, in order. -/
theorem writeFormats_eq_writeFragment (E : Env Fm Op) (l : List (Format Fm)) (buf : String) :
    writeFormats E ⟨l⟩ buf =
      some (⟨sortedStack E l⟩,
        buf ++ String.join ((sortedStack E l).map (writeFragment E (sortedStack E l)))) := by
  unfold writeFormats
  rw [sortSort_eq]
  simp only
  rw [foldl_writeFormat_eq_writeFragment]

theorem lessFormat_of_wrapper (E : Env Fm Op) (x y : Format Fm)
    (hx : E.isWrapper x.fm = true) : lessFormat E x y = true := by
  simp [lessFormat, hx]

theorem lessFormat_wrapper_right (E : Env Fm Op) (x y : Format Fm)
    (hx : E.isWrapper x.fm = false) (hy : E.isWrapper y.fm = true) :
    lessFormat E x y = false := by
  simp [lessFormat, hx, hy]

/-- The comparison of `Less` is transitive, wrappers included. -/
theorem lessFormat_trans (E : Env Fm Op) (x y z : Format Fm)
    (hxy : lessFormat E x y = true) (hyz : lessFormat E y z = true) :
    lessFormat E x z = true := by
  by_cases hx : E.isWrapper x.fm = true
  · exact lessFormat_of_wrapper E x z hx
  · simp only [Bool.not_eq_true] at hx
    have hy : E.isWrapper y.fm = false := by
      by_contra h
      simp only [Bool.not_eq_false] at h
      rw [lessFormat_wrapper_right E x y hx h] at hxy
      exact absurd hxy (by decide)
    have hz : E.isWrapper z.fm = false := by
      by_contra h
      simp only [Bool.not_eq_false] at h
      rw [lessFormat_wrapper_right E y z hy h] at hyz
      exact absurd hyz (by decide)
    have h1 : ¬ canonLE y x := by
      rw [← lessFormat_eq_false_iff E x y hx hy, hxy]
      decide
    have h2 : ¬ canonLE z y := by
      rw [← lessFormat_eq_false_iff E y z hy hz, hyz]
      decide
    have h3 : ¬ canonLE z x := by
      rw [canonLE_iff_lex] at h1 h2 ⊢
      exact not_le.mpr (lt_trans (not_le.mp h1) (not_le.mp h2))
    rw [← lessFormat_eq_false_iff E x z hx hz] at h3
    simpa using h3

theorem insertDown_wrapper (E : Env Fm Op) (x : Format Fm) (hx : E.isWrapper x.fm = true)
    (r : List (Format Fm)) : insertDown E x r = r ++ [x] := by
  induction r with
  | nil => rfl
  | cons y r ih => simp [insertDown, lessFormat_of_wrapper E x y hx, ih]

theorem insertDown_above_wrappers (E : Env Fm Op) (x : Format Fm)
    (hx : E.isWrapper x.fm = false) (ws : List (Format Fm))
    (hws : ∀ f ∈ ws, E.isWrapper f.fm = true) (ns : List (Format Fm)) :
    insertDown E x (ns ++ ws) = insertDown E x ns ++ ws := by
  induction ns with
  | nil =>
    cases ws with
    | nil => rfl
    | cons w ws =>
      simp [insertDown, lessFormat_wrapper_right E x w hx (hws w (List.mem_cons_self w ws))]
  | cons y ns ih =>
    rw [List.cons_append, insertDown, insertDown]
    by_cases hlt : lessFormat E x y = true
    · rw [if_pos hlt, if_pos hlt, ih, List.cons_append]
    · rw [if_neg hlt, if_neg hlt]
      rfl

theorem foldl_insertDown_split (E : Env Fm Op) (l : List (Format Fm)) :
    ∀ ns ws : List (Format Fm),
      (∀ f ∈ ns, E.isWrapper f.fm = false) → (∀ f ∈ ws, E.isWrapper f.fm = true) →
      ∃ ns1 ws1 : List (Format Fm),
        l.foldl (fun acc x => insertDown E x acc) (ns ++ ws) = ns1 ++ ws1 ∧
        (∀ f ∈ ns1, E.isWrapper f.fm = false) ∧ (∀ f ∈ ws1, E.isWrapper f.fm = true) := by
  induction l with
  | nil => intro ns ws hns hws; exact ⟨ns, ws, rfl, hns, hws⟩
  | cons x l ih =>
    intro ns ws hns hws
    rw [List.foldl_cons]
    by_cases hx : E.isWrapper x.fm = true
    · rw [insertDown_wrapper E x hx, List.append_assoc]
      apply ih ns (ws ++ [x]) hns
      intro f hf
      rcases List.mem_append.mp hf with h | h
      · exact hws f h
      · rw [List.mem_singleton.mp h]
        exact hx
    · simp only [Bool.not_eq_true] at hx
      rw [insertDown_above_wrappers E x hx ws hws ns]
      apply ih (insertDown E x ns) ws _ hws
      intro f hf
      rcases List.mem_cons.mp ((insertDown_perm E x ns).mem_iff.mp hf) with rfl | h
      · exact hx
      · exact hns f h

/-- After `sort.Sort` the wrappers of the stack come before the other formats. -/
theorem sortedStack_wrappers_first (E : Env Fm Op) (l : List (Format Fm)) :
    ∃ ws ns : List (Format Fm),
      sortedStack E l = ws ++ ns ∧
      (∀ f ∈ ws, E.isWrapper f.fm = true) ∧ (∀ f ∈ ns, E.isWrapper f.fm = false) := by
  obtain ⟨ns1, ws1, h, hns, hws⟩ := foldl_insertDown_split E l [] [] (by simp) (by simp)
  simp only [List.append_nil] at h
  refine ⟨ws1.reverse, ns1.reverse, ?_, ?_, ?_⟩
  · unfold sortedStack
    rw [h, List.reverse_append]
  · intro f hf
    exact hws f (List.mem_reverse.mp hf)
  · intro f hf
    exact hns f (List.mem_reverse.mp hf)

theorem foldl_add_sublist (t : List (Format Fm)) :
    ∀ fs : formatState Fm, (t.foldl add fs).open.Sublist (fs.open ++ t) := by
  induction t with
  | nil => intro fs; simp
  | cons f t ih =>
    intro fs
    rw [List.foldl_cons]
    refine (ih (add fs f)).trans ?_
    unfold add
    split_ifs
    · simp
    · exact List.Sublist.append_left (List.sublist_cons_self f t) fs.open

end WrapperLemmas

end Quill

/-! ## The claims -/

namespace Quill

section Claims

variable {Fm Op : Type}

theorem map_openFragment_congr (E : Env Fm Op) :
    ∀ l1 l2 : List (Format Fm), l1.map sortKey = l2.map sortKey →
      l1.map (openFragment E) = l2.map (openFragment E) := by
  intro l1
  induction l1 with
  | nil =>
    intro l2 h
    cases l2 with
    | nil => rfl
    | cons b t => simp at h
  | cons a t ih =>
    intro l2 h
    cases l2 with
    | nil => simp at h
    | cons b t2 =>
      simp only [List.map_cons, List.cons.injEq] at h ⊢
      refine ⟨?_, ih t2 h.2⟩
      have h1 : a.Place = b.Place := congrArg Prod.fst h.1
      have h2 : a.Val = b.Val := congrArg Prod.snd h.1
      unfold openFragment
      rw [h1, h2]

theorem map_sortKey_eq_of_sorted_perm :
    ∀ s1 s2 : List (Format Fm), s1.Perm s2 → s1.Pairwise canonLE → s2.Pairwise canonLE →
      s1.map sortKey = s2.map sortKey := by
  intro s1 s2 hp h1 h2
  haveI : IsAntisymm (Nat × String) (fun a b => toLex a ≤ toLex b) :=
    ⟨fun a b hab hba => toLex.injective (le_antisymm hab hba)⟩
  apply List.eq_of_perm_of_sorted (r := fun a b : Nat × String => toLex a ≤ toLex b)
    (hp.map sortKey)
  · rw [List.Sorted, List.pairwise_map]
    exact h1.imp (fun {a b} h => (canonLE_iff_lex a b).mp h)
  · rw [List.Sorted, List.pairwise_map]
    exact h2.imp (fun {a b} h => (canonLE_iff_lex a b).mp h)

theorem eq_of_perm_of_map_sortKey_eq :
    ∀ s1 s2 : List (Format Fm), s1.Perm s2 → s1.map sortKey = s2.map sortKey →
      (s1.map sortKey).Nodup → s1 = s2 := by
  intro s1
  induction s1 with
  | nil =>
    intro s2 hp _ _
    exact hp.nil_eq
  | cons a t ih =>
    intro s2 hp hk hn
    cases s2 with
    | nil => simp at hk
    | cons b t2 =>
      simp only [List.map_cons, List.cons.injEq] at hk
      have hb : b ∈ a :: t := hp.mem_iff.mpr (List.mem_cons_self b t2)
      have hab : a = b :=
        List.inj_on_of_nodup_map hn (List.mem_cons_self a t) hb hk.1
      subst hab
      rw [List.map_cons, List.nodup_cons] at hn
      rw [ih t2 (List.Perm.cons_inv hp) hk.2 hn.2]

/-- On a stack of non-wrapper formats with place Tag, Class or Style
`writeFormats` leaves a sorted permutation and writes the opening fragments of
the spec in that order. -/
theorem writeFormats_canonical (E : Env Fm Op) (l : List (Format Fm)) (buf : String)
    (hw : ∀ f ∈ l, E.isWrapper f.fm = false)
    (hp : ∀ f ∈ l, f.Place = Tag ∨ f.Place = Class ∨ f.Place = Style)
    (hv : ∀ f ∈ l, f.Place ≠ Tag → plainValue E f.Val) :
    ∃ sorted : List (Format Fm),
      sorted.Perm l ∧ sorted.Pairwise canonLE ∧
      writeFormats E ⟨l⟩ buf =
        some (⟨sorted⟩, buf ++ String.join (sorted.map specOpening)) := by
  refine ⟨sortedStack E l, sortedStack_perm E l, sortedStack_sorted E l hw, ?_⟩
  have hm : (sortedStack E l).map (openFragment E) = (sortedStack E l).map specOpening := by
    apply List.map_congr_left
    intro f hf
    have hf1 : f ∈ l := (sortedStack_perm E l).mem_iff.mp hf
    exact openFragment_eq_specOpening E f (hp f hf1) (hv f hf1)
  rw [writeFormats_eq E l buf hw, hm]

/-- C1: on an open stack that holds only non-wrapper formats with place Tag,
Class or Style, `writeFormats` leaves the stack as a permutation of itself in
ascending order of place and, within a place, of value, and appends to the
buffer exactly the opening fragments of the formats in that order: the tag
for Tag, the span with double-quoted class or style attribute for Class and
Style (for values without quote, backslash or non-printable character). -/
theorem C1_writeFormats_canonical (E : Env Fm Op) (fs : formatState Fm) (buf : String)
    (hw : ∀ f ∈ fs.open, E.isWrapper f.fm = false)
    (hp : ∀ f ∈ fs.open, f.Place = Tag ∨ f.Place = Class ∨ f.Place = Style)
    (hv : ∀ f ∈ fs.open, f.Place ≠ Tag → plainValue E f.Val) :
    ∃ sorted : List (Format Fm),
      sorted.Perm fs.open ∧ sorted.Pairwise canonLE ∧
      writeFormats E fs buf =
        some (⟨sorted⟩, buf ++ String.join (sorted.map specOpening)) := by
  obtain ⟨l⟩ := fs
  exact writeFormats_canonical E l buf hw hp hv

/-- Witness of C1: a stack of four formats given out of order. -/
theorem C1_writeFormats_canonical_witness :
    (∀ f ∈ [(⟨"x", Class, 1⟩ : Format Nat), ⟨"strong", Tag, 2⟩, ⟨"color:red", Style, 3⟩,
        ⟨"em", Tag, 4⟩], sampleEnv.isWrapper f.fm = false) ∧
    ∃ sorted : List (Format Nat),
      sorted.Perm [⟨"x", Class, 1⟩, ⟨"strong", Tag, 2⟩, ⟨"color:red", Style, 3⟩,
        ⟨"em", Tag, 4⟩] ∧ sorted.Pairwise canonLE ∧
      writeFormats sampleEnv ⟨[⟨"x", Class, 1⟩, ⟨"strong", Tag, 2⟩, ⟨"color:red", Style, 3⟩,
        ⟨"em", Tag, 4⟩]⟩ "" =
        some (⟨sorted⟩, "" ++ String.join (sorted.map specOpening)) :=
  ⟨by decide,
   C1_writeFormats_canonical sampleEnv
    ⟨[⟨"x", Class, 1⟩, ⟨"strong", Tag, 2⟩, ⟨"color:red", Style, 3⟩, ⟨"em", Tag, 4⟩]⟩ ""
    (by decide) (by decide) (by decide)⟩

/-- C2: for two open stacks of non-wrapper formats that are permutations of
one another, `writeFormats` writes byte-identical output and leaves both
stacks in the same order. A format is told apart by its place and value, as
`hasSet` does before `add`: the two stacks are left with the same sequence of
(place, value) pairs, and they are left equal, element for element, when no
two open formats share place and value. -/
theorem C2_writeFormats_permutation (E : Env Fm Op) (fs1 fs2 : formatState Fm) (buf : String)
    (hperm : fs1.open.Perm fs2.open)
    (hw : ∀ f ∈ fs1.open, E.isWrapper f.fm = false) :
    ∃ (s1 s2 : List (Format Fm)) (out : String),
      writeFormats E fs1 buf = some (⟨s1⟩, out) ∧
      writeFormats E fs2 buf = some (⟨s2⟩, out) ∧
      s1.map sortKey = s2.map sortKey ∧
      ((fs1.open.map sortKey).Nodup → s1 = s2) := by
  obtain ⟨l1⟩ := fs1
  obtain ⟨l2⟩ := fs2
  simp only at hperm hw
  have hw2 : ∀ f ∈ l2, E.isWrapper f.fm = false := fun f hf => hw f (hperm.mem_iff.mpr hf)
  have hp12 : (sortedStack E l1).Perm (sortedStack E l2) :=
    ((sortedStack_perm E l1).trans hperm).trans (sortedStack_perm E l2).symm
  have hkeys : (sortedStack E l1).map sortKey = (sortedStack E l2).map sortKey :=
    map_sortKey_eq_of_sorted_perm _ _ hp12 (sortedStack_sorted E l1 hw)
      (sortedStack_sorted E l2 hw2)
  refine ⟨sortedStack E l1, sortedStack E l2,
    buf ++ String.join ((sortedStack E l1).map (openFragment E)),
    writeFormats_eq E l1 buf hw, ?_, hkeys, ?_⟩
  · rw [writeFormats_eq E l2 buf hw2, map_openFragment_congr E _ _ hkeys]
  · intro hn
    apply eq_of_perm_of_map_sortKey_eq _ _ hp12 hkeys
    exact (((sortedStack_perm E l1).map sortKey).nodup_iff).mpr hn

/-- Witness of C2: the same three formats, of distinct place and value, in two
orders. -/
theorem C2_writeFormats_permutation_witness :
    [(⟨"x", Class, 1⟩ : Format Nat), ⟨"em", Tag, 2⟩, ⟨"b", Tag, 3⟩].Perm
      [⟨"b", Tag, 3⟩, ⟨"x", Class, 1⟩, ⟨"em", Tag, 2⟩] ∧
    ([(⟨"x", Class, 1⟩ : Format Nat), ⟨"em", Tag, 2⟩, ⟨"b", Tag, 3⟩].map sortKey).Nodup ∧
    ∃ (s : List (Format Nat)) (out : String),
      writeFormats sampleEnv ⟨[⟨"x", Class, 1⟩, ⟨"em", Tag, 2⟩, ⟨"b", Tag, 3⟩]⟩ "" =
        some (⟨s⟩, out) ∧
      writeFormats sampleEnv ⟨[⟨"b", Tag, 3⟩, ⟨"x", Class, 1⟩, ⟨"em", Tag, 2⟩]⟩ "" =
        some (⟨s⟩, out) :=
  ⟨by decide, by decide,
   match C2_writeFormats_permutation sampleEnv
      ⟨[⟨"x", Class, 1⟩, ⟨"em", Tag, 2⟩, ⟨"b", Tag, 3⟩]⟩
      ⟨[⟨"b", Tag, 3⟩, ⟨"x", Class, 1⟩, ⟨"em", Tag, 2⟩]⟩ "" (by decide) (by decide) with
   | ⟨s1, _, out, h1, h2, _, h4⟩ => ⟨s1, out, h1, (h4 (by decide)).symm ▸ h2⟩⟩

theorem closeScan_all_continue (E : Env Fm Op) (o : Op) (below : List (Format Fm)) :
    ∀ (above : List (Format Fm)) (buf : String) (temp : List (Format Fm)),
      (∀ f ∈ below, E.HasFormat f.fm o = true) →
      closeScan E o below above buf temp = ⟨⟨below.reverse ++ above⟩, buf, temp⟩ := by
  induction below with
  | nil => intro above buf temp _; rfl
  | cons f below ih =>
    intro above buf temp h
    rw [closeScan, if_pos (h f (List.mem_cons_self f below)),
      ih _ _ _ (fun g hg => h g (List.mem_cons_of_mem f hg))]
    simp

/-- C3: when the `HasFormat` test of every open format holds on the run (the
empty stack included), `closePrevious` writes nothing and leaves the stack
unchanged, element for element. -/
theorem C3_closePrevious_all_continue (E : Env Fm Op) (fs : formatState Fm) (buf : String)
    (o : Op) (h : ∀ f ∈ fs.open, E.HasFormat f.fm o = true) :
    closePrevious E fs buf o = some (fs, buf) := by
  obtain ⟨l⟩ := fs
  rw [closePrevious_eq, closeScan_all_continue E o l.reverse [] buf []
    (fun f hf => h f (List.mem_reverse.mp hf))]
  simp

/-- Witness of C3: a wrapper and two tags that all continue on the run. -/
theorem C3_closePrevious_all_continue_witness :
    (∀ f ∈ [(⟨"ul", Tag, 100⟩ : Format Nat), ⟨"em", Tag, 2⟩, ⟨"b", Tag, 3⟩],
      sampleEnv.HasFormat f.fm [3, 100, 2] = true) ∧
    closePrevious sampleEnv ⟨[⟨"ul", Tag, 100⟩, ⟨"em", Tag, 2⟩, ⟨"b", Tag, 3⟩]⟩ "text"
      [3, 100, 2] =
      some (⟨[⟨"ul", Tag, 100⟩, ⟨"em", Tag, 2⟩, ⟨"b", Tag, 3⟩]⟩, "text") :=
  ⟨by decide,
   C3_closePrevious_all_continue sampleEnv
    ⟨[⟨"ul", Tag, 100⟩, ⟨"em", Tag, 2⟩, ⟨"b", Tag, 3⟩]⟩ "text" [3, 100, 2] (by decide)⟩

/-- C4: with the open stack [Tag "strong", Tag "em", Tag "u"], none a wrapper,
and a run on which only "em" and "u" continue, `closePrevious` writes exactly
`</u></em></strong><em><u>` and leaves the stack [Tag "em", Tag "u"]. -/
theorem C4_renesting (E : Env Fm Op) (o : Op) (buf : String) (bold italic underline : Fm)
    (hwb : E.isWrapper bold = false) (hwi : E.isWrapper italic = false)
    (hwu : E.isWrapper underline = false)
    (hb : E.HasFormat bold o = false) (hi : E.HasFormat italic o = true)
    (hu : E.HasFormat underline o = true) :
    closePrevious E ⟨[⟨"strong", Tag, bold⟩, ⟨"em", Tag, italic⟩, ⟨"u", Tag, underline⟩]⟩ buf o =
      some (⟨[⟨"em", Tag, italic⟩, ⟨"u", Tag, underline⟩]⟩,
        buf ++ "</u></em></strong><em><u>") := by
  have hlt : lessFormat E ⟨"em", Tag, italic⟩ ⟨"u", Tag, underline⟩ = true := by
    have hcmp : decide ("em".data < "u".data) = true := by decide
    simp only [lessFormat, hwi, hwu, Bool.false_eq_true, if_false, ne_eq, not_true_eq_false,
      hcmp]
  rw [closePrevious_eq]
  simp only [List.reverse_cons, List.reverse_nil, List.nil_append, List.cons_append, closeScan,
    hu, hi, hb, hwb, hwu, hwi, if_true, Bool.false_eq_true, if_false, popFragments,
    closeFragment, List.append_nil, List.length_cons, List.length_nil, List.foldl_cons,
    List.foldl_nil, add]
  have h3 : ∀ n : Nat, n = Tag → n < 3 := by intro n hn; subst hn; decide
  simp only [h3 Tag rfl, if_true, List.nil_append, List.cons_append, gt_iff_lt,
    Nat.zero_lt_succ]
  rw [writeFormats_eq E _ _ (by
    intro f hf
    simp only [List.mem_cons, List.mem_singleton, List.not_mem_nil, or_false] at hf
    rcases hf with rfl | rfl
    · exact hwu
    · exact hwi)]
  simp only [sortedStack, List.foldl_cons, List.foldl_nil, insertDown, hlt, if_true,
    List.reverse_cons, List.reverse_nil, List.nil_append, List.cons_append, List.map_cons,
    List.map_nil, openFragment]
  congr 2
  apply String.ext
  simp [String.data_join]

/-- Witness of C4: bold, italic and underline numbered 1, 2 and 3, and a run
that carries 2 and 3. -/
theorem C4_renesting_witness :
    sampleEnv.HasFormat 1 [2, 3] = false ∧
    closePrevious sampleEnv ⟨[⟨"strong", Tag, 1⟩, ⟨"em", Tag, 2⟩, ⟨"u", Tag, 3⟩]⟩ "" [2, 3] =
      some (⟨[⟨"em", Tag, 2⟩, ⟨"u", Tag, 3⟩]⟩, "" ++ "</u></em></strong><em><u>") :=
  ⟨by decide,
   C4_renesting sampleEnv [2, 3] "" 1 2 3 (by decide) (by decide) (by decide) (by decide)
    (by decide) (by decide)⟩


theorem foldl_add_open (t : List (Format Fm)) :
    ∀ fs : formatState Fm, (∀ f ∈ t, f.Place < 3) → (t.foldl add fs).open = fs.open ++ t := by
  induction t with
  | nil => intro fs _; simp
  | cons f t ih =>
    intro fs h
    rw [List.foldl_cons, ih _ (fun g hg => h g (List.mem_cons_of_mem f hg))]
    simp [add, h f (List.mem_cons_self f t)]

theorem place_lt_three (n : Nat) (h : n = Tag ∨ n = Class ∨ n = Style) : n < 3 := by
  rcases h with h | h | h <;> subst h <;> decide

theorem closeScan_perm (E : Env Fm Op) (o : Op) (below : List (Format Fm)) :
    ∀ (above : List (Format Fm)) (buf : String) (temp : List (Format Fm)),
      (∀ f ∈ below, E.isWrapper f.fm = false) →
      ((closeScan E o below above buf temp).closedTemp ++
        (closeScan E o below above buf temp).fs.open).Perm
        (temp ++ below.filter (fun f => E.HasFormat f.fm o) ++ above) := by
  induction below with
  | nil => intro above buf temp _; simp [closeScan]
  | cons f below ih =>
    intro above buf temp hw
    have hwf := hw f (List.mem_cons_self f below)
    have hwb : ∀ g ∈ below, E.isWrapper g.fm = false :=
      fun g hg => hw g (List.mem_cons_of_mem f hg)
    rw [closeScan]
    by_cases hc : E.HasFormat f.fm o = true
    · rw [if_pos hc]
      simp only [List.filter_cons, hc, if_true]
      refine (ih (f :: above) buf temp hwb).trans ?_
      simp only [List.append_assoc, List.cons_append]
      exact List.Perm.append_left _ List.perm_middle
    · rw [if_neg hc, if_neg (by rw [hwf]; decide)]
      simp only [List.filter_cons, hc, if_false]
      refine (ih [] _ (temp ++ above.reverse) hwb).trans ?_
      simp only [List.append_nil, List.append_assoc]
      refine List.Perm.append_left _ ?_
      refine List.perm_append_comm.trans ?_
      exact List.Perm.append_left _ (List.reverse_perm above)

/-- C5: on an open stack of non-wrapper formats with place Tag, Class or
Style, `closePrevious` returns, and the stack it leaves holds, as a multiset,
exactly the formats of the stack it found whose `HasFormat` test holds on the
run: every format left open continues on the run, and every format that
continues on the run is left open. -/
theorem C5_stack_invariant (E : Env Fm Op) (fs : formatState Fm) (buf : String) (o : Op)
    (hw : ∀ f ∈ fs.open, E.isWrapper f.fm = false)
    (hp : ∀ f ∈ fs.open, f.Place = Tag ∨ f.Place = Class ∨ f.Place = Style) :
    ∃ (fs1 : formatState Fm) (out : String),
      closePrevious E fs buf o = some (fs1, out) ∧
      fs1.open.Perm (fs.open.filter (fun f => E.HasFormat f.fm o)) ∧
      (∀ f ∈ fs1.open, E.HasFormat f.fm o = true) ∧
      (∀ f ∈ fs.open, E.HasFormat f.fm o = true → f ∈ fs1.open) := by
  obtain ⟨l⟩ := fs
  simp only at hw hp
  have hperm := closeScan_perm E o l.reverse [] buf []
    (fun f hf => hw f (List.mem_reverse.mp hf))
  simp only [List.nil_append, List.append_nil] at hperm
  have hperm2 : ((closeScan E o l.reverse [] buf []).closedTemp ++
      (closeScan E o l.reverse [] buf []).fs.open).Perm
      (l.filter (fun f => E.HasFormat f.fm o)) :=
    hperm.trans ((List.reverse_perm l).filter _)
  have hsub : ∀ f ∈ (closeScan E o l.reverse [] buf []).closedTemp ++
      (closeScan E o l.reverse [] buf []).fs.open, f ∈ l :=
    fun f hf => (List.mem_filter.mp (hperm2.mem_iff.mp hf)).1
  have key : ∃ (fs1 : formatState Fm) (out : String),
      closePrevious E ⟨l⟩ buf o = some (fs1, out) ∧
      fs1.open.Perm (l.filter (fun f => E.HasFormat f.fm o)) := by
    rw [closePrevious_eq]
    by_cases hlen : (closeScan E o l.reverse [] buf []).closedTemp.length > 0
    · rw [if_pos hlen]
      have hopen := foldl_add_open (closeScan E o l.reverse [] buf []).closedTemp
        (closeScan E o l.reverse [] buf []).fs
        (fun f hf => place_lt_three _ (hp f (hsub f (List.mem_append_left _ hf))))
      have hnw : ∀ f ∈ (closeScan E o l.reverse [] buf []).fs.open ++
          (closeScan E o l.reverse [] buf []).closedTemp, E.isWrapper f.fm = false :=
        fun f hf => hw f (hsub f (List.perm_append_comm.mem_iff.mp hf))
      have hst : List.foldl add (closeScan E o l.reverse [] buf []).fs
          (closeScan E o l.reverse [] buf []).closedTemp =
          ⟨(closeScan E o l.reverse [] buf []).fs.open ++
            (closeScan E o l.reverse [] buf []).closedTemp⟩ := by
        rw [← hopen]
      rw [hst, writeFormats_eq E _ _ hnw]
      exact ⟨_, _, rfl, (sortedStack_perm E _).trans (List.perm_append_comm.trans hperm2)⟩
    · rw [if_neg hlen]
      refine ⟨_, _, rfl, ?_⟩
      have hnil : (closeScan E o l.reverse [] buf []).closedTemp = [] :=
        List.eq_nil_of_length_eq_zero (by omega)
      rw [hnil, List.nil_append] at hperm2
      exact hperm2
  obtain ⟨fs1, out, h1, h2⟩ := key
  refine ⟨fs1, out, h1, h2, ?_, ?_⟩
  · intro f hf
    have := (List.mem_filter.mp (h2.mem_iff.mp hf)).2
    simpa using this
  · intro f hf hc
    exact h2.mem_iff.mpr (List.mem_filter.mpr ⟨hf, by simpa using hc⟩)

/-- Witness of C5: five open formats, of which the second and the fourth do
not continue on the run. -/
theorem C5_stack_invariant_witness :
    (∀ f ∈ [(⟨"b", Tag, 1⟩ : Format Nat), ⟨"y", Class, 2⟩, ⟨"em", Tag, 3⟩,
        ⟨"color:red", Style, 4⟩, ⟨"x", Class, 5⟩], sampleEnv.isWrapper f.fm = false) ∧
    ∃ (fs1 : formatState Nat) (out : String),
      closePrevious sampleEnv ⟨[⟨"b", Tag, 1⟩, ⟨"y", Class, 2⟩, ⟨"em", Tag, 3⟩,
        ⟨"color:red", Style, 4⟩, ⟨"x", Class, 5⟩]⟩ "" [1, 3, 5] = some (fs1, out) ∧
      fs1.open.Perm (([(⟨"b", Tag, 1⟩ : Format Nat), ⟨"y", Class, 2⟩, ⟨"em", Tag, 3⟩,
        ⟨"color:red", Style, 4⟩, ⟨"x", Class, 5⟩]).filter
          (fun f => sampleEnv.HasFormat f.fm [1, 3, 5])) ∧
      (∀ f ∈ fs1.open, sampleEnv.HasFormat f.fm [1, 3, 5] = true) ∧
      (∀ f ∈ [(⟨"b", Tag, 1⟩ : Format Nat), ⟨"y", Class, 2⟩, ⟨"em", Tag, 3⟩,
        ⟨"color:red", Style, 4⟩, ⟨"x", Class, 5⟩],
        sampleEnv.HasFormat f.fm [1, 3, 5] = true → f ∈ fs1.open) :=
  ⟨by decide,
   C5_stack_invariant sampleEnv ⟨[⟨"b", Tag, 1⟩, ⟨"y", Class, 2⟩, ⟨"em", Tag, 3⟩,
    ⟨"color:red", Style, 4⟩, ⟨"x", Class, 5⟩]⟩ "" [1, 3, 5] (by decide) (by decide)⟩


/-- C6, the code at a failing input: a wrapper that does not continue on the
run lies below a tag that does. `closePrevious` writes the closing tag of the
tag and removes the tag; the wrapper stays open and its `PostWrap` result
`</ul>` is not written. -/
theorem C6_wrapper_below_continuing_format :
    sampleEnv.isWrapper 100 = true ∧ sampleEnv.HasFormat 100 [1] = false ∧
    sampleEnv.isWrapper 1 = false ∧ sampleEnv.HasFormat 1 [1] = true ∧
    closePrevious sampleEnv ⟨[⟨"ul", Tag, 100⟩, ⟨"b", Tag, 1⟩]⟩ "" [1] =
      some (⟨[⟨"ul", Tag, 100⟩]⟩, "</b>") := by
  decide

/-- C7, the code at a failing input: of three open tags only the second does
not continue on the run. `closePrevious` closes the third and the second and
then writes an opening fragment for the first, which it never closed, as well
as for the third: two opening fragments against two closing fragments and one
non-continuing format. -/
theorem C7_reopen_writes_whole_stack :
    (∀ f ∈ [(⟨"a", Tag, 1⟩ : Format Nat), ⟨"b", Tag, 2⟩, ⟨"c", Tag, 3⟩],
      sampleEnv.isWrapper f.fm = false) ∧
    sampleEnv.HasFormat 1 [1, 3] = true ∧ sampleEnv.HasFormat 2 [1, 3] = false ∧
    sampleEnv.HasFormat 3 [1, 3] = true ∧
    closePrevious sampleEnv ⟨[⟨"a", Tag, 1⟩, ⟨"b", Tag, 2⟩, ⟨"c", Tag, 3⟩]⟩ "" [1, 3] =
      some (⟨[⟨"a", Tag, 1⟩, ⟨"c", Tag, 3⟩]⟩, "</c></b><a><c>") := by
  decide

theorem closeScan_none_continue (E : Env Fm Op) (o : Op) (below : List (Format Fm)) :
    ∀ (buf : String) (temp : List (Format Fm)),
      (∀ f ∈ below, E.HasFormat f.fm o = false) →
      closeScan E o below [] buf temp = ⟨⟨[]⟩, buf ++ popFragments E o [] below, temp⟩ := by
  induction below with
  | nil => intro buf temp _; simp [closeScan, popFragments]
  | cons f below ih =>
    intro buf temp h
    have hf := h f (List.mem_cons_self f below)
    have hb : ∀ g ∈ below, E.HasFormat g.fm o = false :=
      fun g hg => h g (List.mem_cons_of_mem f hg)
    rw [closeScan, if_neg (by rw [hf]; decide)]
    by_cases hw : E.isWrapper f.fm = true
    · rw [if_pos hw]
      simp only [List.dropLast_single, List.getLast_singleton]
      rw [ih _ _ hb]
      simp [popFragments, String.append_assoc]
    · rw [if_neg hw]
      simp only [List.reverse_nil, popFragments, String.append_empty, List.append_nil]
      rw [ih _ _ hb]
      simp [popFragments, String.append_assoc]

theorem popFragments_eq_join (E : Env Fm Op) (o : Op) (r : List (Format Fm)) :
    popFragments E o [] r =
      String.join ((List.range r.length).reverse.map (specClosingAt E o r.reverse)) := by
  induction r with
  | nil => rfl
  | cons f r ih =>
    have htop : specClosingAt E o (f :: r).reverse r.length =
        closeFragment E o ([] ++ (f :: r).reverse) f := by
      unfold specClosingAt closeFragment specClosing
      have hrd : ((f :: r).reverse)[r.length]? = some f := by
        rw [List.reverse_cons]
        have := List.getElem?_concat_length r.reverse f
        rwa [List.length_reverse] at this
      have htk : List.take (r.length + 1) (f :: r).reverse = (f :: r).reverse := by
        apply List.take_of_length_le
        simp
      simp only [hrd, htk, List.nil_append]
    have hlow : (List.range r.length).reverse.map (specClosingAt E o (f :: r).reverse) =
        (List.range r.length).reverse.map (specClosingAt E o r.reverse) := by
      apply List.map_congr_left
      intro i hi
      have hi1 : i < r.length := List.mem_range.mp (List.mem_reverse.mp hi)
      unfold specClosingAt
      rw [List.reverse_cons, List.getElem?_append_left (by simpa using hi1),
        List.take_append_of_le_length (by simp; omega)]
    rw [popFragments, ih, List.length_cons, List.range_succ, List.reverse_append,
      List.reverse_singleton, List.singleton_append, List.map_cons, join_cons, htop, hlow]

/-- C8: when the `HasFormat` test of no open format holds on the run,
`closePrevious` writes one closing fragment per open format, from the last
index of the stack down to the first (`PostWrap` of the stack still open and
the run for a wrapper, the generic closing tag otherwise), writes nothing
else, and leaves the stack empty. -/
theorem C8_end_of_stream (E : Env Fm Op) (fs : formatState Fm) (buf : String) (o : Op)
    (h : ∀ f ∈ fs.open, E.HasFormat f.fm o = false) :
    closePrevious E fs buf o =
      some (⟨[]⟩, buf ++ String.join
        ((List.range fs.open.length).reverse.map (specClosingAt E o fs.open))) := by
  obtain ⟨l⟩ := fs
  rw [closePrevious_eq, closeScan_none_continue E o l.reverse buf []
    (fun f hf => h f (List.mem_reverse.mp hf)), popFragments_eq_join]
  simp

/-- Witness of C8: a wrapper between a class and a tag, and a run without
formats. -/
theorem C8_end_of_stream_witness :
    (∀ f ∈ [(⟨"x", Class, 1⟩ : Format Nat), ⟨"ul", Tag, 100⟩, ⟨"b", Tag, 3⟩],
      sampleEnv.HasFormat f.fm [] = false) ∧
    closePrevious sampleEnv ⟨[⟨"x", Class, 1⟩, ⟨"ul", Tag, 100⟩, ⟨"b", Tag, 3⟩]⟩ "" [] =
      some (⟨[]⟩, "" ++ String.join
        ((List.range 3).reverse.map
          (specClosingAt sampleEnv [] [⟨"x", Class, 1⟩, ⟨"ul", Tag, 100⟩, ⟨"b", Tag, 3⟩]))) ∧
    "" ++ String.join ((List.range 3).reverse.map
        (specClosingAt sampleEnv [] [⟨"x", Class, 1⟩, ⟨"ul", Tag, 100⟩, ⟨"b", Tag, 3⟩])) =
      "</b></ul></span>" :=
  ⟨by decide,
   C8_end_of_stream sampleEnv ⟨[⟨"x", Class, 1⟩, ⟨"ul", Tag, 100⟩, ⟨"b", Tag, 3⟩]⟩ "" []
    (by decide),
   by decide⟩


theorem popFragments_eq_specClosing (E : Env Fm Op) (o : Op) (base : List (Format Fm))
    (r : List (Format Fm)) (hw : ∀ f ∈ r, E.isWrapper f.fm = false) :
    popFragments E o base r = String.join (r.map specClosing) := by
  induction r with
  | nil => rfl
  | cons f r ih =>
    rw [popFragments, ih (fun g hg => hw g (List.mem_cons_of_mem f hg)),
      closeFragment_eq_specClosing E o _ f (hw f (List.mem_cons_self f r)), List.map_cons,
      join_cons]

/-- C9: adding a list of non-wrapper formats with place Tag, Class or Style
to the empty stack, calling `writeFormats`, and then calling `closePrevious`
with a run on which none of them continues writes the opening fragments of the
formats in canonical order followed by their closing fragments in the exact
reverse order, and ends with the empty stack. The closing fragment of a format
names the element its opening fragment opened (the tag value, or span), and
the opening fragment is the one the spec gives when the value of a Class or
Style format has no quote, backslash or non-printable character. For
Tag "strong" and Class "x" the output is `<strong><span class="x">` followed
by `</span></strong>`. -/
theorem C9_open_then_flush (E : Env Fm Op) (l : List (Format Fm)) (buf : String) (o : Op)
    (hw : ∀ f ∈ l, E.isWrapper f.fm = false)
    (hp : ∀ f ∈ l, f.Place = Tag ∨ f.Place = Class ∨ f.Place = Style)
    (hc : ∀ f ∈ l, E.HasFormat f.fm o = false) :
    (∃ s : List (Format Fm),
      s.Perm l ∧ s.Pairwise canonLE ∧
      writeFormats E (l.foldl add ⟨[]⟩) buf =
        some (⟨s⟩, buf ++ String.join (s.map (openFragment E))) ∧
      closePrevious E ⟨s⟩ (buf ++ String.join (s.map (openFragment E))) o =
        some (⟨[]⟩, buf ++ String.join (s.map (openFragment E)) ++
          String.join (s.reverse.map specClosing)) ∧
      (∀ f ∈ s, specClosing f = "</" ++ elementName f ++ ">" ∧
        ∃ rest : String, openFragment E f = "<" ++ elementName f ++ rest) ∧
      (∀ f ∈ s, (f.Place ≠ Tag → plainValue E f.Val) → openFragment E f = specOpening f)) ∧
    (writeFormats sampleEnv ([⟨"strong", Tag, 1⟩, ⟨"x", Class, 2⟩].foldl add ⟨[]⟩) "" =
        some (⟨[⟨"strong", Tag, 1⟩, ⟨"x", Class, 2⟩]⟩, "<strong><span class=\"x\">") ∧
      closePrevious sampleEnv ⟨[⟨"strong", Tag, 1⟩, ⟨"x", Class, 2⟩]⟩
        "<strong><span class=\"x\">" [] =
        some (⟨[]⟩, "<strong><span class=\"x\"></span></strong>")) := by
  refine ⟨?_, by decide, by decide⟩
  have hadd : l.foldl add (⟨[]⟩ : formatState Fm) = ⟨l⟩ := by
    have h := foldl_add_open l (⟨[]⟩ : formatState Fm) (fun f hf => place_lt_three _ (hp f hf))
    rw [List.nil_append] at h
    cases hx : l.foldl add (⟨[]⟩ : formatState Fm) with
    | mk op =>
      rw [hx] at h
      simp only at h
      rw [h]
  have hs1 : (sortedStack E l).Perm l := sortedStack_perm E l
  refine ⟨sortedStack E l, hs1, sortedStack_sorted E l hw, ?_, ?_, ?_, ?_⟩
  · rw [hadd]
    exact writeFormats_eq E l buf hw
  · have hcs : ∀ f ∈ (sortedStack E l).reverse, E.HasFormat f.fm o = false :=
      fun f hf => hc f (hs1.mem_iff.mp (List.mem_reverse.mp hf))
    have hws : ∀ f ∈ (sortedStack E l).reverse, E.isWrapper f.fm = false :=
      fun f hf => hw f (hs1.mem_iff.mp (List.mem_reverse.mp hf))
    rw [closePrevious_eq, closeScan_none_continue E o (sortedStack E l).reverse _ [] hcs,
      popFragments_eq_specClosing E o [] (sortedStack E l).reverse hws]
    simp
  · intro f hf
    have hpf := hp f (hs1.mem_iff.mp hf)
    constructor
    · unfold specClosing elementName
      split_ifs <;> rfl
    · unfold openFragment elementName
      rcases hpf with h | h | h
      · refine ⟨">", ?_⟩
        simp only [h, if_true]
      · have h0 : ¬ (Class = Tag) := by decide
        refine ⟨" class=" ++ Quote E.IsPrint f.Val ++ ">", ?_⟩
        simp only [h, h0, if_false, if_true]
        apply String.ext
        simp
      · have h0 : ¬ (Style = Tag) := by decide
        have h1 : ¬ (Style = Class) := by decide
        refine ⟨" style=" ++ Quote E.IsPrint f.Val ++ ">", ?_⟩
        simp only [h, h0, h1, if_false, if_true]
        apply String.ext
        simp
  · intro f hf hv
    exact openFragment_eq_specOpening E f (hp f (hs1.mem_iff.mp hf)) hv

/-- Witness of C9: three formats added out of canonical order, one of them a
style whose value holds double quotes. -/
theorem C9_open_then_flush_witness :
    (∀ f ∈ [(⟨"font-family:\"Arial\"", Style, 1⟩ : Format Nat), ⟨"em", Tag, 2⟩, ⟨"b", Tag, 3⟩],
      sampleEnv.HasFormat f.fm [] = false) ∧
    ((∃ s : List (Format Nat),
      s.Perm [⟨"font-family:\"Arial\"", Style, 1⟩, ⟨"em", Tag, 2⟩, ⟨"b", Tag, 3⟩] ∧
      s.Pairwise canonLE ∧
      writeFormats sampleEnv
        ([⟨"font-family:\"Arial\"", Style, 1⟩, ⟨"em", Tag, 2⟩, ⟨"b", Tag, 3⟩].foldl add ⟨[]⟩)
        "" = some (⟨s⟩, "" ++ String.join (s.map (openFragment sampleEnv))) ∧
      closePrevious sampleEnv ⟨s⟩ ("" ++ String.join (s.map (openFragment sampleEnv))) [] =
        some (⟨[]⟩, "" ++ String.join (s.map (openFragment sampleEnv)) ++
          String.join (s.reverse.map specClosing)) ∧
      (∀ f ∈ s, specClosing f = "</" ++ elementName f ++ ">" ∧
        ∃ rest : String, openFragment sampleEnv f = "<" ++ elementName f ++ rest) ∧
      (∀ f ∈ s, (f.Place ≠ Tag → plainValue sampleEnv f.Val) →
        openFragment sampleEnv f = specOpening f)) ∧
    (writeFormats sampleEnv ([⟨"strong", Tag, 1⟩, ⟨"x", Class, 2⟩].foldl add ⟨[]⟩) "" =
        some (⟨[⟨"strong", Tag, 1⟩, ⟨"x", Class, 2⟩]⟩, "<strong><span class=\"x\">") ∧
      closePrevious sampleEnv ⟨[⟨"strong", Tag, 1⟩, ⟨"x", Class, 2⟩]⟩
        "<strong><span class=\"x\">" [] =
        some (⟨[]⟩, "<strong><span class=\"x\"></span></strong>"))) ∧
    (writeFormats sampleEnv
        ([⟨"font-family:\"Arial\"", Style, 1⟩, ⟨"em", Tag, 2⟩, ⟨"b", Tag, 3⟩].foldl add ⟨[]⟩)
        "" =
      some (⟨[⟨"b", Tag, 3⟩, ⟨"em", Tag, 2⟩, ⟨"font-family:\"Arial\"", Style, 1⟩]⟩,
        "<b><em><span style=\"font-family:\\\"Arial\\\"\">")) :=
  ⟨by decide,
   C9_open_then_flush sampleEnv
    [⟨"font-family:\"Arial\"", Style, 1⟩, ⟨"em", Tag, 2⟩, ⟨"b", Tag, 3⟩] "" []
    (by decide) (by decide) (by decide),
   by decide⟩

/-- C10: `add` appends the format as the new last element of the open stack,
the earlier elements unchanged, when its place is Tag, Class or Style; for any
other place it returns the stack unchanged. It has no failing outcome. -/
theorem C10_add (fs : formatState Fm) (f : Format Fm) :
    ((f.Place = Tag ∨ f.Place = Class ∨ f.Place = Style) →
      (add fs f).open = fs.open ++ [f]) ∧
    (¬ (f.Place = Tag ∨ f.Place = Class ∨ f.Place = Style) → add fs f = fs) := by
  constructor
  · intro h
    simp [add, place_lt_three _ h]
  · intro h
    have h3 : ¬ f.Place < 3 := by
      intro hlt
      apply h
      unfold Tag Class Style
      omega
    simp [add, h3]

/-- Witness of C10: a format with place Style is appended, one with place 3 is
dropped. -/
theorem C10_add_witness :
    ((Style = Tag ∨ Style = Class ∨ Style = Style) ∧
      (add ⟨[⟨"b", Tag, 1⟩]⟩ (⟨"color:red", Style, 2⟩ : Format Nat)).open =
        [⟨"b", Tag, 1⟩] ++ [⟨"color:red", Style, 2⟩]) ∧
    (¬ (3 = Tag ∨ 3 = Class ∨ 3 = Style) ∧
      add ⟨[⟨"b", Tag, 1⟩]⟩ (⟨"h1", 3, 2⟩ : Format Nat) = ⟨[⟨"b", Tag, 1⟩]⟩) :=
  ⟨⟨by decide, (C10_add ⟨[⟨"b", Tag, 1⟩]⟩ (⟨"color:red", Style, 2⟩ : Format Nat)).1 (by decide)⟩,
   ⟨by decide, (C10_add ⟨[⟨"b", Tag, 1⟩]⟩ (⟨"h1", 3, 2⟩ : Format Nat)).2 (by decide)⟩⟩


/-- C11: `hasSet` returns true exactly when some open format has the place and
the value of the format asked for; the answer is the same for any other format
with that place and value and for any other stack with the same sequence of
places and values, whatever formatters (wrappers or not) they carry. -/
theorem C11_hasSet (fs : formatState Fm) (f : Format Fm) :
    (hasSet fs f = true ↔ ∃ x ∈ fs.open, x.Place = f.Place ∧ x.Val = f.Val) ∧
    (∀ (fs2 : formatState Fm) (g : Format Fm),
      fs2.open.map sortKey = fs.open.map sortKey → sortKey g = sortKey f →
      hasSet fs2 g = hasSet fs f) := by
  constructor
  · unfold hasSet
    rw [List.any_eq_true]
    constructor
    · rintro ⟨x, hx, h⟩
      simp only [Bool.and_eq_true, decide_eq_true_eq] at h
      exact ⟨x, hx, h⟩
    · rintro ⟨x, hx, h⟩
      exact ⟨x, hx, by simpa using h⟩
  · intro fs2 g hst hg
    have hany : ∀ l : List (Format Fm), ∀ h : Format Fm,
        l.any (fun x => decide (x.Place = h.Place) && decide (x.Val = h.Val)) =
          (l.map sortKey).any (fun k => decide (k = sortKey h)) := by
      intro l h
      induction l with
      | nil => rfl
      | cons a t ih =>
        simp only [List.any_cons, List.map_cons, ih]
        congr 1
        simp only [sortKey, Prod.mk.injEq, Bool.decide_and]
    unfold hasSet
    rw [hany, hany, hst, hg]

/-- Witness of C11: a wrapper with place Tag and value "ul" is open; a format
with the same place and value and a formatter that is not a wrapper counts as
set. -/
theorem C11_hasSet_witness :
    (hasSet ⟨[⟨"b", Tag, 1⟩, ⟨"ul", Tag, 100⟩]⟩ (⟨"ul", Tag, 7⟩ : Format Nat) = true ↔
      ∃ x ∈ [(⟨"b", Tag, 1⟩ : Format Nat), ⟨"ul", Tag, 100⟩],
        x.Place = Tag ∧ x.Val = "ul") ∧
    hasSet ⟨[⟨"b", Tag, 5⟩, ⟨"ul", Tag, 6⟩]⟩ (⟨"ul", Tag, 100⟩ : Format Nat) =
      hasSet ⟨[⟨"b", Tag, 1⟩, ⟨"ul", Tag, 100⟩]⟩ (⟨"ul", Tag, 7⟩ : Format Nat) :=
  ⟨(C11_hasSet ⟨[⟨"b", Tag, 1⟩, ⟨"ul", Tag, 100⟩]⟩ (⟨"ul", Tag, 7⟩ : Format Nat)).1,
   (C11_hasSet ⟨[⟨"b", Tag, 1⟩, ⟨"ul", Tag, 100⟩]⟩ (⟨"ul", Tag, 7⟩ : Format Nat)).2
    ⟨[⟨"b", Tag, 5⟩, ⟨"ul", Tag, 6⟩]⟩ ⟨"ul", Tag, 100⟩ (by decide) (by decide)⟩

/-- Counterexample to C12 as stated: two wrappers, added in the order "ul",
"ol". After `writeFormats` the stack holds them in the order "ol", "ul": the
sort has exchanged them. -/
theorem C12_counterexample :
    (∀ f ∈ [(⟨"ul", Tag, 100⟩ : Format Nat), ⟨"ol", Tag, 101⟩],
      sampleEnv.isWrapper f.fm = true) ∧
    (add (add ⟨[]⟩ ⟨"ul", Tag, 100⟩) ⟨"ol", Tag, 101⟩ : formatState Nat) =
      ⟨[⟨"ul", Tag, 100⟩, ⟨"ol", Tag, 101⟩]⟩ ∧
    writeFormats sampleEnv ⟨[⟨"ul", Tag, 100⟩, ⟨"ol", Tag, 101⟩]⟩ "" =
      some (⟨[⟨"ol", Tag, 101⟩, ⟨"ul", Tag, 100⟩]⟩, "<ul><ul>") := by
  decide

/-- C12, amended: for every open stack `writeFormats` returns, and in the stack
it leaves all wrapper formats precede all non-wrapper formats; the wrappers
are those of the stack before the call and so are the non-wrappers; `PreWrap`
is invoked on the wrappers in the order the sort left them, each with the
sorted stack, before any non-wrapper fragment is written. -/
theorem C12_wrappers_first (E : Env Fm Op) (fs : formatState Fm) (buf : String) :
    ∃ ws ns : List (Format Fm),
      writeFormats E fs buf =
        some (⟨ws ++ ns⟩,
          buf ++ String.join (ws.map (fun f => E.PreWrap f.fm (ws ++ ns))) ++
            String.join (ns.map (openFragment E))) ∧
      (∀ f ∈ ws, E.isWrapper f.fm = true) ∧ (∀ f ∈ ns, E.isWrapper f.fm = false) ∧
      ws.Perm (fs.open.filter (fun f => E.isWrapper f.fm)) ∧
      ns.Perm (fs.open.filter (fun f => !E.isWrapper f.fm)) := by
  obtain ⟨l⟩ := fs
  obtain ⟨ws, ns, hsplit, hws, hns⟩ := sortedStack_wrappers_first E l
  have hperm := sortedStack_perm E l
  rw [hsplit] at hperm
  have hfw : (ws ++ ns).filter (fun f => E.isWrapper f.fm) = ws := by
    have ha : ws.filter (fun f => E.isWrapper f.fm) = ws := List.filter_eq_self.mpr hws
    have hb : ns.filter (fun f => E.isWrapper f.fm) = [] :=
      List.filter_eq_nil_iff.mpr (fun f hf => by rw [hns f hf]; decide)
    rw [List.filter_append, ha, hb, List.append_nil]
  have hfn : (ws ++ ns).filter (fun f => !E.isWrapper f.fm) = ns := by
    have ha : ws.filter (fun f => !E.isWrapper f.fm) = [] :=
      List.filter_eq_nil_iff.mpr (fun f hf => by rw [hws f hf]; decide)
    have hb : ns.filter (fun f => !E.isWrapper f.fm) = ns :=
      List.filter_eq_self.mpr (fun f hf => by rw [hns f hf]; rfl)
    rw [List.filter_append, ha, hb, List.nil_append]
  refine ⟨ws, ns, ?_, hws, hns, ?_, ?_⟩
  · rw [writeFormats_eq_writeFragment, hsplit, List.map_append, join_append,
      String.append_assoc]
    have h1 : ws.map (writeFragment E (ws ++ ns)) =
        ws.map (fun f => E.PreWrap f.fm (ws ++ ns)) :=
      List.map_congr_left (fun f hf => by simp [writeFragment, hws f hf])
    have h2 : ns.map (writeFragment E (ws ++ ns)) = ns.map (openFragment E) :=
      List.map_congr_left (fun f hf => by simp [writeFragment, hns f hf])
    rw [h1, h2]
  · have := hperm.filter (fun f => E.isWrapper f.fm)
    rwa [hfw] at this
  · have := hperm.filter (fun f => !E.isWrapper f.fm)
    rwa [hfn] at this

/-- C14: on a stack whose last element is a non-wrapper format, `pop` writes
`</value>` when the place of that element is Tag and `</span>` when it is
Class or Style, whatever the value, and removes exactly that element: the
elements before it stay, in order. -/
theorem C14_generic_close (E : Env Fm Op) (l : List (Format Fm)) (f : Format Fm)
    (buf : String) (o : Op) (hw : E.isWrapper f.fm = false) :
    (f.Place = Tag → pop E ⟨l ++ [f]⟩ buf o = some (⟨l⟩, buf ++ ("</" ++ f.Val ++ ">"))) ∧
    (f.Place = Class ∨ f.Place = Style →
      pop E ⟨l ++ [f]⟩ buf o = some (⟨l⟩, buf ++ "</span>")) := by
  rw [pop_concat, closeFragment_eq_specClosing E o _ f hw]
  unfold specClosing
  constructor
  · intro h
    rw [if_pos h]
  · intro h
    have hne : ¬ f.Place = Tag := by
      rcases h with h | h <;> rw [h] <;> decide
    rw [if_neg hne]

/-- Witness of C14: a tag on top of a class, and a style on top of a tag. -/
theorem C14_generic_close_witness :
    (sampleEnv.isWrapper 2 = false ∧
      pop sampleEnv ⟨[⟨"x", Class, 1⟩] ++ [⟨"em", Tag, 2⟩]⟩ "<em>" [] =
        some (⟨[⟨"x", Class, 1⟩]⟩, "<em>" ++ ("</" ++ "em" ++ ">"))) ∧
    pop sampleEnv ⟨[⟨"b", Tag, 1⟩] ++ [⟨"color:red", Style, 2⟩]⟩ "" [] =
      some (⟨[⟨"b", Tag, 1⟩]⟩, "" ++ "</span>") :=
  ⟨⟨by decide,
    (C14_generic_close sampleEnv [⟨"x", Class, 1⟩] ⟨"em", Tag, 2⟩ "<em>" [] (by decide)).1
      (by decide)⟩,
   (C14_generic_close sampleEnv [⟨"b", Tag, 1⟩] ⟨"color:red", Style, 2⟩ "" [] (by decide)).2
    (by decide)⟩

theorem foldl_add_filter (t : List (Format Fm)) :
    ∀ fs : formatState Fm,
      (t.foldl add fs).open = fs.open ++ t.filter (fun g => decide (g.Place < 3)) := by
  induction t with
  | nil => intro fs; simp
  | cons f t ih =>
    intro fs
    rw [List.foldl_cons, ih]
    unfold add
    by_cases h : f.Place < 3
    · simp [h]
    · simp [h]

/-- On a stack without wrappers the scan closes every format from the last
one down to the lowest one that does not continue, keeps the formats below
that one, and records as temporarily closed the continuing formats above it,
last one first. -/
theorem closeScan_lowest (E : Env Fm Op) (o : Op) (f : Format Fm) (lo : List (Format Fm))
    (hf : E.HasFormat f.fm o = false) (hwf : E.isWrapper f.fm = false)
    (hlo : ∀ g ∈ lo, E.HasFormat g.fm o = true) (X : List (Format Fm)) :
    ∀ (above : List (Format Fm)) (buf : String) (temp : List (Format Fm)),
      (∀ g ∈ X, E.isWrapper g.fm = false) → (∀ g ∈ above, E.isWrapper g.fm = false) →
      closeScan E o (X ++ f :: lo.reverse) above buf temp =
        ⟨⟨lo⟩, buf ++ String.join (above.reverse.map specClosing) ++
          String.join (X.map specClosing) ++ specClosing f,
          temp ++ above.reverse ++ X.filter (fun g => E.HasFormat g.fm o)⟩ := by
  induction X with
  | nil =>
    intro above buf temp _ hab
    rw [List.nil_append, closeScan, if_neg (by rw [hf]; decide), if_neg (by rw [hwf]; decide),
      closeScan_all_continue E o lo.reverse [] _ _
        (fun g hg => hlo g (List.mem_reverse.mp hg)),
      popFragments_eq_specClosing E o _ above.reverse
        (fun g hg => hab g (List.mem_reverse.mp hg)),
      closeFragment_eq_specClosing E o _ f hwf]
    simp only [List.reverse_reverse, List.append_nil, List.map_nil, List.filter_nil]
    congr 1
    apply String.ext
    simp
  | cons x X ih =>
    intro above buf temp hX hab
    have hwx := hX x (List.mem_cons_self x X)
    have hX1 : ∀ g ∈ X, E.isWrapper g.fm = false :=
      fun g hg => hX g (List.mem_cons_of_mem x hg)
    rw [List.cons_append, closeScan]
    by_cases hc : E.HasFormat x.fm o = true
    · rw [if_pos hc]
      rw [ih (x :: above) buf temp hX1 (by
        intro g hg
        rcases List.mem_cons.mp hg with rfl | h1
        · exact hwx
        · exact hab g h1)]
      simp only [List.filter_cons, hc, if_true]
      congr 1
      · apply String.ext
        simp
      · simp
    · rw [if_neg hc, if_neg (by rw [hwx]; decide)]
      rw [ih [] _ (temp ++ above.reverse) hX1 (by simp),
        popFragments_eq_specClosing E o _ above.reverse
          (fun g hg => hab g (List.mem_reverse.mp hg)),
        closeFragment_eq_specClosing E o _ x hwx]
      simp only [List.filter_cons, hc, if_false]
      congr 1
      · apply String.ext
        simp
      · simp

/-- Whatever the stack holds, the formats the scan leaves open or closed
temporarily are among those it was given. -/
theorem closeScan_subperm (E : Env Fm Op) (o : Op) (below : List (Format Fm)) :
    ∀ (above : List (Format Fm)) (buf : String) (temp : List (Format Fm)),
      ((closeScan E o below above buf temp).closedTemp ++
        (closeScan E o below above buf temp).fs.open).Subperm
        (temp ++ (below.reverse ++ above)) := by
  induction below with
  | nil => intro above buf temp; simp [closeScan, List.Subperm.refl]
  | cons f below ih =>
    intro above buf temp
    rw [closeScan]
    by_cases hc : E.HasFormat f.fm o = true
    · rw [if_pos hc]
      have h := ih (f :: above) buf temp
      simpa using h
    · rw [if_neg hc]
      by_cases hw : E.isWrapper f.fm = true
      · rw [if_pos hw]
        refine (ih _ _ temp).trans ?_
        apply List.Sublist.subperm
        apply List.Sublist.append_left
        rw [List.reverse_cons, List.append_assoc]
        apply List.Sublist.append_left
        exact List.dropLast_sublist _
      · rw [if_neg hw]
        refine (ih [] _ (temp ++ above.reverse)).trans ?_
        rw [List.append_nil, List.append_assoc, List.reverse_cons, List.append_assoc]
        rw [List.subperm_append_left]
        have h1 : (above.reverse ++ below.reverse).Perm (below.reverse ++ above) :=
          List.perm_append_comm.trans (List.Perm.append_left _ (List.reverse_perm above))
        refine h1.subperm.trans ?_
        apply List.Sublist.subperm
        apply List.Sublist.append_left
        simp

/-- C15: on an open stack of non-wrapper formats in which the format at index
`m` does not continue on the run and every format below index `m` does,
`closePrevious` writes exactly the closing fragments of the stack elements
from the last index down to `m`, in that descending order, and no other
closing fragment: what follows them is nothing when no format above index `m`
continues, and otherwise the opening fragments of the stack it leaves. That
stack holds the formats below index `m`, none of which was closed, and the
continuing formats above it that `add` accepts. -/
theorem C15_close_order (E : Env Fm Op) (fs : formatState Fm) (buf : String) (o : Op)
    (m : Nat) (f : Format Fm)
    (hw : ∀ g ∈ fs.open, E.isWrapper g.fm = false)
    (hm : fs.open[m]? = some f) (hf : E.HasFormat f.fm o = false)
    (hlow : ∀ g ∈ fs.open.take m, E.HasFormat g.fm o = true) :
    ∃ fs1 : formatState Fm,
      closePrevious E fs buf o =
        some (fs1, buf ++ String.join ((fs.open.drop m).reverse.map specClosing) ++
          (if ((fs.open.drop m).filter (fun g => E.HasFormat g.fm o)).isEmpty then ""
           else String.join (fs1.open.map (openFragment E)))) ∧
      fs1.open.Perm (fs.open.take m ++
        (fs.open.drop m).filter (fun g => E.HasFormat g.fm o && decide (g.Place < 3))) ∧
      (((fs.open.drop m).filter (fun g => E.HasFormat g.fm o)).isEmpty = true →
        fs1.open = fs.open.take m) ∧
      (((fs.open.drop m).filter (fun g => E.HasFormat g.fm o)).isEmpty = false →
        fs1.open.Pairwise canonLE) ∧
      (∀ g ∈ fs.open.take m, g ∈ fs1.open) := by
  obtain ⟨l⟩ := fs
  simp only at hw hm hlow ⊢
  have hmlt : m < l.length := by
    rcases Nat.lt_or_ge m l.length with h | h
    · exact h
    · rw [List.getElem?_eq_none h] at hm
      exact absurd hm (by simp)
  have hget : l[m] = f := by
    rw [List.getElem?_eq_getElem hmlt] at hm
    exact Option.some.inj hm
  have hdrop : l.drop m = f :: l.drop (m + 1) := by
    rw [List.drop_eq_getElem_cons hmlt, hget]
  have hl : l = l.take m ++ f :: l.drop (m + 1) := by
    rw [← hdrop, List.take_append_drop]
  have hfl : f ∈ l := by
    rw [hl]
    simp
  have hrev : l.reverse = (l.drop (m + 1)).reverse ++ f :: (l.take m).reverse := by
    conv_lhs => rw [hl]
    simp
  have hscan := closeScan_lowest E o f (l.take m) hf (hw f hfl) hlow
    (l.drop (m + 1)).reverse [] buf []
    (fun g hg => hw g (List.mem_of_mem_drop (List.mem_reverse.mp hg))) (by simp)
  rw [← hrev] at hscan
  have hbuf : buf ++ String.join (List.map specClosing ([] : List (Format Fm)).reverse) ++
      String.join (List.map specClosing (l.drop (m + 1)).reverse) ++ specClosing f =
      buf ++ String.join ((l.drop m).reverse.map specClosing) := by
    rw [hdrop]
    apply String.ext
    simp
  have hfilt : (l.drop m).filter (fun g => E.HasFormat g.fm o) =
      (l.drop (m + 1)).filter (fun g => E.HasFormat g.fm o) := by
    rw [hdrop]
    simp [List.filter_cons, hf]
  have hfilt2 : (l.drop m).filter (fun g => E.HasFormat g.fm o && decide (g.Place < 3)) =
      (l.drop (m + 1)).filter (fun g => E.HasFormat g.fm o && decide (g.Place < 3)) := by
    rw [hdrop]
    simp [List.filter_cons, hf]
  rw [hbuf] at hscan
  simp only [List.reverse_nil, List.append_nil, List.nil_append] at hscan
  rw [hfilt, hfilt2, closePrevious_eq, hscan]
  simp only
  by_cases hemp : (l.drop (m + 1)).filter (fun g => E.HasFormat g.fm o) = []
  · have hemp2 : (l.drop (m + 1)).filter
        (fun g => E.HasFormat g.fm o && decide (g.Place < 3)) = [] := by
      rw [List.filter_eq_nil_iff] at hemp ⊢
      intro g hg
      simp [hemp g hg]
    have htemp : (l.drop (m + 1)).reverse.filter (fun g => E.HasFormat g.fm o) = [] := by
      rw [List.filter_reverse, hemp, List.reverse_nil]
    rw [htemp, hemp, hemp2]
    simp only [List.length_nil, gt_iff_lt, lt_self_iff_false, if_false, List.isEmpty_nil,
      if_true, String.append_empty, List.append_nil]
    exact ⟨⟨l.take m⟩, rfl, List.Perm.refl _, fun _ => rfl, fun h => absurd h (by decide),
      fun g hg => hg⟩
  · have htemp : (l.drop (m + 1)).reverse.filter (fun g => E.HasFormat g.fm o) ≠ [] := by
      rw [List.filter_reverse]
      simpa using hemp
    have hlen : ((l.drop (m + 1)).reverse.filter (fun g => E.HasFormat g.fm o)).length > 0 :=
      List.length_pos.mpr htemp
    have hise : ((l.drop (m + 1)).filter (fun g => E.HasFormat g.fm o)).isEmpty = false := by
      cases hx : (l.drop (m + 1)).filter (fun g => E.HasFormat g.fm o) with
      | nil => exact absurd hx hemp
      | cons a t => rfl
    rw [if_pos hlen, hise]
    have hopen := foldl_add_filter
      ((l.drop (m + 1)).reverse.filter (fun g => E.HasFormat g.fm o)) ⟨l.take m⟩
    have hst : ∀ x : formatState Fm, x = ⟨x.open⟩ := fun _ => rfl
    have hnw : ∀ g ∈ l.take m ++ ((l.drop (m + 1)).reverse.filter
        (fun g => E.HasFormat g.fm o)).filter (fun g => decide (g.Place < 3)),
        E.isWrapper g.fm = false := by
      intro g hg
      apply hw g
      rcases List.mem_append.mp hg with h | h
      · exact List.mem_of_mem_take h
      · exact List.mem_of_mem_drop
          (List.mem_reverse.mp (List.mem_filter.mp (List.mem_filter.mp h).1).1)
    rw [hst (List.foldl add _ _), hopen, writeFormats_eq E _ _ hnw]
    simp only [Bool.false_eq_true, if_false]
    refine ⟨_, rfl, ?_, fun h => absurd h (by decide), fun _ => sortedStack_sorted E _ hnw, ?_⟩
    · refine (sortedStack_perm E _).trans (List.Perm.append_left _ ?_)
      rw [List.filter_filter, List.filter_reverse]
      refine (List.reverse_perm _).trans ?_
      apply List.Perm.of_eq
      apply List.filter_congr
      intro g _
      exact Bool.and_comm _ _
    · intro g hg
      exact (sortedStack_perm E _).mem_iff.mpr (List.mem_append_left _ hg)

/-- Witness of C15: five open formats; the one at index 1 is the lowest that
does not continue, so the formats at indices 4, 3, 2 and 1 are closed in that
order, and the format at index 0 is not. -/
theorem C15_close_order_witness :
    ([(⟨"b", Tag, 1⟩ : Format Nat), ⟨"y", Class, 2⟩, ⟨"em", Tag, 3⟩,
        ⟨"color:red", Style, 4⟩, ⟨"x", Class, 5⟩][1]? = some ⟨"y", Class, 2⟩ ∧
      sampleEnv.HasFormat 2 [1, 3, 5] = false) ∧
    (∃ fs1 : formatState Nat,
      closePrevious sampleEnv ⟨[⟨"b", Tag, 1⟩, ⟨"y", Class, 2⟩, ⟨"em", Tag, 3⟩,
        ⟨"color:red", Style, 4⟩, ⟨"x", Class, 5⟩]⟩ "" [1, 3, 5] =
        some (fs1, "" ++ String.join (([(⟨"b", Tag, 1⟩ : Format Nat), ⟨"y", Class, 2⟩,
          ⟨"em", Tag, 3⟩, ⟨"color:red", Style, 4⟩, ⟨"x", Class, 5⟩].drop 1).reverse.map
            specClosing) ++
          (if (([(⟨"b", Tag, 1⟩ : Format Nat), ⟨"y", Class, 2⟩, ⟨"em", Tag, 3⟩,
            ⟨"color:red", Style, 4⟩, ⟨"x", Class, 5⟩].drop 1).filter
              (fun g => sampleEnv.HasFormat g.fm [1, 3, 5])).isEmpty then ""
           else String.join (fs1.open.map (openFragment sampleEnv)))) ∧
      fs1.open.Perm (([(⟨"b", Tag, 1⟩ : Format Nat), ⟨"y", Class, 2⟩, ⟨"em", Tag, 3⟩,
          ⟨"color:red", Style, 4⟩, ⟨"x", Class, 5⟩].take 1) ++
        ([(⟨"b", Tag, 1⟩ : Format Nat), ⟨"y", Class, 2⟩, ⟨"em", Tag, 3⟩,
          ⟨"color:red", Style, 4⟩, ⟨"x", Class, 5⟩].drop 1).filter
            (fun g => sampleEnv.HasFormat g.fm [1, 3, 5] && decide (g.Place < 3))) ∧
      ((([(⟨"b", Tag, 1⟩ : Format Nat), ⟨"y", Class, 2⟩, ⟨"em", Tag, 3⟩,
          ⟨"color:red", Style, 4⟩, ⟨"x", Class, 5⟩].drop 1).filter
            (fun g => sampleEnv.HasFormat g.fm [1, 3, 5])).isEmpty = true →
        fs1.open = [(⟨"b", Tag, 1⟩ : Format Nat), ⟨"y", Class, 2⟩, ⟨"em", Tag, 3⟩,
          ⟨"color:red", Style, 4⟩, ⟨"x", Class, 5⟩].take 1) ∧
      ((([(⟨"b", Tag, 1⟩ : Format Nat), ⟨"y", Class, 2⟩, ⟨"em", Tag, 3⟩,
          ⟨"color:red", Style, 4⟩, ⟨"x", Class, 5⟩].drop 1).filter
            (fun g => sampleEnv.HasFormat g.fm [1, 3, 5])).isEmpty = false →
        fs1.open.Pairwise canonLE) ∧
      (∀ g ∈ [(⟨"b", Tag, 1⟩ : Format Nat), ⟨"y", Class, 2⟩, ⟨"em", Tag, 3⟩,
        ⟨"color:red", Style, 4⟩, ⟨"x", Class, 5⟩].take 1, g ∈ fs1.open)) ∧
    closePrevious sampleEnv ⟨[⟨"b", Tag, 1⟩, ⟨"y", Class, 2⟩, ⟨"em", Tag, 3⟩,
        ⟨"color:red", Style, 4⟩, ⟨"x", Class, 5⟩]⟩ "" [1, 3, 5] =
      some (⟨[⟨"b", Tag, 1⟩, ⟨"em", Tag, 3⟩, ⟨"x", Class, 5⟩]⟩,
        "</span></span></em></span><b><em><span class=\"x\">") :=
  ⟨⟨by decide, by decide⟩,
   C15_close_order sampleEnv ⟨[⟨"b", Tag, 1⟩, ⟨"y", Class, 2⟩, ⟨"em", Tag, 3⟩,
    ⟨"color:red", Style, 4⟩, ⟨"x", Class, 5⟩]⟩ "" [1, 3, 5] 1 ⟨"y", Class, 2⟩
    (by decide) (by decide) (by decide) (by decide),
   by decide⟩

/-- C16, the code at failing inputs: for a wrapper at index 0, `Less(0, 0)` is
true; for two wrappers at indices 0 and 1, `Less(0, 1)` and `Less(1, 0)` are
both true. -/
theorem C16_Less_on_wrappers :
    sampleEnv.isWrapper 100 = true ∧ sampleEnv.isWrapper 101 = true ∧
    Less sampleEnv ⟨[⟨"ul", Tag, 100⟩]⟩ 0 0 = some true ∧
    Less sampleEnv ⟨[⟨"ul", Tag, 100⟩, ⟨"ol", Tag, 101⟩]⟩ 0 1 = some true ∧
    Less sampleEnv ⟨[⟨"ul", Tag, 100⟩, ⟨"ol", Tag, 101⟩]⟩ 1 0 = some true := by
  decide

/-- C17: `closePrevious` is total. For every open stack and every run the close
loop returns, which it does only if every read of `fs.open[i]` was in range
and every call of `pop` found a stack that was not empty, and so does
`closePrevious`. -/
theorem C17_closePrevious_total (E : Env Fm Op) (fs : formatState Fm) (buf : String) (o : Op) :
    (∃ s : CloseState Fm, closeLoop E o fs.open.length ⟨fs, buf, []⟩ = some s) ∧
    (∃ r : formatState Fm × String, closePrevious E fs buf o = some r) := by
  obtain ⟨l⟩ := fs
  constructor
  · have h := closeLoop_eq E o l.reverse [] buf []
    simp only [List.reverse_reverse, List.append_nil, List.length_reverse] at h
    exact ⟨_, h⟩
  · rw [closePrevious_eq]
    split_ifs
    · have hst : ∀ x : formatState Fm, x = ⟨x.open⟩ := fun _ => rfl
      rw [hst (List.foldl add _ _), writeFormats_eq_writeFragment]
      exact ⟨_, rfl⟩
    · exact ⟨_, rfl⟩

/-- C18: for every open stack `writeFormats` returns and leaves a permutation
of the stack it was given: the same formats with the same multiplicities, and
so the same length. -/
theorem C18_writeFormats_perm (E : Env Fm Op) (fs : formatState Fm) (buf : String) :
    ∃ (fs1 : formatState Fm) (out : String),
      writeFormats E fs buf = some (fs1, out) ∧
      fs1.open.Perm fs.open ∧ fs1.open.length = fs.open.length := by
  obtain ⟨l⟩ := fs
  exact ⟨_, _, writeFormats_eq_writeFragment E l buf, sortedStack_perm E l,
    (sortedStack_perm E l).length_eq⟩

/-- C19: for every open stack, wrappers included, and every run,
`closePrevious` returns and leaves a stack that is a sub-multiset of the stack
it was given: its length has not grown and every format in it was open
before the call. -/
theorem C19_closePrevious_opens_nothing (E : Env Fm Op) (fs : formatState Fm) (buf : String)
    (o : Op) :
    ∃ (fs1 : formatState Fm) (out : String),
      closePrevious E fs buf o = some (fs1, out) ∧
      fs1.open.Subperm fs.open ∧ fs1.open.length ≤ fs.open.length ∧
      (∀ f ∈ fs1.open, f ∈ fs.open) := by
  obtain ⟨l⟩ := fs
  have hsub := closeScan_subperm E o l.reverse [] buf []
  simp only [List.nil_append, List.append_nil, List.reverse_reverse] at hsub
  have key : ∃ (fs1 : formatState Fm) (out : String),
      closePrevious E ⟨l⟩ buf o = some (fs1, out) ∧ fs1.open.Subperm l := by
    rw [closePrevious_eq]
    split_ifs
    · have hst : ∀ x : formatState Fm, x = ⟨x.open⟩ := fun _ => rfl
      rw [hst (List.foldl add _ _), writeFormats_eq_writeFragment]
      refine ⟨_, _, rfl, ?_⟩
      refine (sortedStack_perm E _).subperm.trans ?_
      refine (foldl_add_sublist _ _).subperm.trans ?_
      exact List.perm_append_comm.subperm.trans hsub
    · refine ⟨_, _, rfl, ?_⟩
      exact (List.sublist_append_right _ _).subperm.trans hsub
  obtain ⟨fs1, out, h1, h2⟩ := key
  exact ⟨fs1, out, h1, h2, h2.length_le, fun f hf => h2.subset hf⟩

end Claims

end Quill
